import Mathlib

/-!
Verification development for the PostgreSQL → MongoDB migration engine
(`migrate.py`): the whitelist loader, the keyset-paginated batch fetcher,
the batch upserter, the windowed migration engine with its checkpoint
store, the orchestrator commands (full-sync / incremental / resume), the
consistency verifier and the checkpoint file writer are embedded as
executable Lean definitions, and the behavioural claims about them are
stated and settled as theorems at the end of the file.

Modelling conventions:
* SQL timestamps are integers (seconds since the epoch); the epoch
  `1970-01-01T00:00:00Z` is `0`.
* A fetched row is an association list from column name to a scalar
  `Value`, exactly the shape of a `DictCursor` row.
* Injected batch failures (source-driver errors and any other exception
  raised inside one loop iteration) are driven by an explicit schedule of
  `BatchOutcome`s, one per iteration of the engine loop.
* The engine loop runs on fuel; running out of fuel is reported as a
  distinct outcome so that no behaviour is silently invented.
-/

namespace Migrate

/-- A scalar value carried by a source row or a transformed document
field: SQL NULL / Python `None`, a boolean, an integer (also used for
timestamps), or a string. -/
inductive Value where
  | vNull
  | vBool (b : Bool)
  | vInt (n : Int)
  | vStr (s : String)
deriving DecidableEq, Repr

/-- A value stored in a sink (MongoDB) document field: a scalar, or an
array built by add-to-set updates. -/
inductive VField where
  | scalar (v : Value)
  | arr (xs : List Value)
deriving DecidableEq, Repr

/-- A fetched source row: column name to scalar value. -/
abbrev Row := List (String × Value)

/-- A transformed (sink-ready, scalar-valued) document, as produced by
`transform_row_to_doc`. -/
abbrev SDoc := List (String × Value)

/-- A sink document as stored in a MongoDB collection. -/
abbrev Doc := List (String × VField)

/-- First binding of key `k` in an association list (Python dict lookup;
documents built by the code below never hold duplicate keys). -/
def lookupField : List (String × α) → String → Option α
  | [], _ => none
  | kv :: rest, k => if kv.1 = k then some kv.2 else lookupField rest k

/-- Set key `k` to `v`: replace the first binding in place, or append a
new binding (Python dict assignment / MongoDB `set` on one field). -/
def setField : List (String × α) → String → α → List (String × α)
  | [], k, v => [(k, v)]
  | kv :: rest, k, v => if kv.1 = k then (k, v) :: rest else kv :: setField rest k v

/-- Remove every binding of key `k` (Python `dict.pop(k, None)`; the
dictionaries handled by the code hold each key at most once). -/
def eraseField : List (String × α) → String → List (String × α)
  | [], _ => []
  | kv :: rest, k => if kv.1 = k then eraseField rest k else kv :: eraseField rest k

/-- The keys of an association list. -/
def keysOf (d : List (String × α)) : List String := d.map Prod.fst

/-- Python truthiness of a scalar value (`None`, `False`, `0` and `""`
are falsy). -/
def pyTruthy : Value → Bool
  | .vNull => false
  | .vBool b => b
  | .vInt n => decide (n ≠ 0)
  | .vStr s => decide (s ≠ "")

/-- Python truthiness of an optional value (`doc.get(k)` returning
nothing is falsy). -/
def pyTruthyOpt : Option Value → Bool
  | none => false
  | some v => pyTruthy v

/-- Python `str()` of a scalar value, as used when the checkpoint cursor
id is serialized. -/
def pyStr : Value → String
  | .vStr s => s
  | .vInt n => toString n
  | .vBool b => if b then "True" else "False"
  | .vNull => "None"

/-- Strict lexicographic order on character lists by code point: the
comparison Python and PostgreSQL apply to (ASCII) strings. -/
def lexLtB : List Char → List Char → Bool
  | [], [] => false
  | [], _ :: _ => true
  | _ :: _, [] => false
  | a :: as, b :: bs =>
    if a.toNat < b.toNat then true
    else if b.toNat < a.toNat then false
    else lexLtB as bs

/-- Decimal digit value of a character, if it is a digit. -/
def digitVal (c : Char) : Option Nat :=
  if 48 ≤ c.toNat ∧ c.toNat ≤ 57 then some (c.toNat - 48) else none

/-- Accumulate a decimal digit string into a number; fails on any
non-digit. -/
def digitsToNatAux : List Char → Nat → Option Nat
  | [], acc => some acc
  | c :: cs, acc =>
    match digitVal c with
    | some d => digitsToNatAux cs (acc * 10 + d)
    | none => none

/-- Parse a decimal integer literal the way PostgreSQL casts an untyped
text literal to a numeric column's type (`'10' > id`); fails on anything
that is not an optionally signed digit string. -/
def pgParseInt (s : String) : Option Int :=
  match s.data with
  | [] => none
  | '-' :: cs =>
    match cs with
    | [] => none
    | _ :: _ => (digitsToNatAux cs 0).map (fun n => -(n : Int))
  | cs => (digitsToNatAux cs 0).map (fun n => (n : Int))

/-- SQL `<` on primary-key values: native order on two integers or two
strings; a string compared against an integer column is implicitly cast
to integer (an unparsable literal compares as false, standing in for the
cast error). -/
def valueLtB : Value → Value → Bool
  | .vInt a, .vInt b => decide (a < b)
  | .vStr a, .vStr b => lexLtB a.data b.data
  | .vInt a, .vStr s =>
    match pgParseInt s with
    | some b => decide (a < b)
    | none => false
  | .vStr s, .vInt b =>
    match pgParseInt s with
    | some a => decide (a < b)
    | none => false
  | _, _ => false

/-- Non-strict companion of `valueLtB`. -/
def valueLeB (a b : Value) : Bool := !(valueLtB b a)

/-- The five migrated entities, the keys of `TABLES_CONFIG`. -/
inductive TableKey where
  | events
  | hcc_events
  | attendees
  | coupon_burui
  | member_types
deriving DecidableEq, Repr

/-- Static per-entity configuration, one record per entry of the source's
`TABLES_CONFIG` dictionary; `link_field` and `embed_array_field` are
optional exactly where the source dictionary omits the key. -/
structure TableConf where
  pg_table : String
  add_date_field : String
  mod_date_field : String
  id_field : String
  mongo_collection : String
  verification_mode : String
  link_field : Option String
  embed_array_field : Option String
deriving DecidableEq, Repr

/-- The source's `TABLES_CONFIG`, field for field. -/
def TABLES_CONFIG : TableKey → TableConf
  | .events =>
    { pg_table := "gif_event", add_date_field := "add_date", mod_date_field := "mod_date",
      id_field := "event_no", mongo_collection := "events",
      verification_mode := "primary_count", link_field := some "event_no",
      embed_array_field := none }
  | .hcc_events =>
    { pg_table := "gif_hcc_event", add_date_field := "add_date", mod_date_field := "mod_date",
      id_field := "event_no", mongo_collection := "events",
      verification_mode := "merge_source", link_field := some "event_no",
      embed_array_field := none }
  | .attendees =>
    { pg_table := "gif_hcc_event_attendee", add_date_field := "add_date",
      mod_date_field := "mod_date", id_field := "id", mongo_collection := "event_attendees",
      verification_mode := "primary_count", link_field := some "event_no",
      embed_array_field := none }
  | .coupon_burui =>
    { pg_table := "gif_event_coupon_burui", add_date_field := "add_date",
      mod_date_field := "mod_date", id_field := "id", mongo_collection := "events",
      verification_mode := "embed_array", link_field := none,
      embed_array_field := some "usingBranchIds" }
  | .member_types =>
    { pg_table := "gif_hcc_event_member_type", add_date_field := "add_date",
      mod_date_field := "mod_date", id_field := "id", mongo_collection := "events",
      verification_mode := "embed_array", link_field := some "event_no",
      embed_array_field := some "memberTypes" }

/-- The batch size (`BATCH_SIZE` environment default `"500"`). -/
def BATCH_SIZE : Nat := 500

/-- `COALESCE(t.mod_date, t.add_date, '1970-01-01')`: the effective
timestamp ordering and filtering every fetch query is built on.  The
columns are timestamp-typed, so a non-timestamp model value is treated
like NULL. -/
def effective_timestamp (conf : TableConf) (r : Row) : Int :=
  match lookupField r conf.mod_date_field with
  | some (.vInt t) => t
  | _ =>
    match lookupField r conf.add_date_field with
    | some (.vInt t) => t
    | _ => 0

/-- The primary-key value of a row (`t.<id_field>`). -/
def id_value (conf : TableConf) (r : Row) : Value :=
  (lookupField r conf.id_field).getD .vNull

/-- The whitelist-scoping value of a row: `conf.get("link_field",
"event_no")`.  For `coupon_burui` the source reads `s.event_no` from the
joined coupon-setting table; the model carries that joined column on the
row itself (a row the inner join would drop simply lacks it and is then
excluded by the whitelist clause, as in SQL). -/
def link_value (conf : TableConf) (r : Row) : Option Value :=
  lookupField r (conf.link_field.getD "event_no")

/-- Row ordering of the fetch query: `ORDER BY effective_timestamp,
id` ascending. -/
def row_le (conf : TableConf) (a b : Row) : Bool :=
  if effective_timestamp conf a < effective_timestamp conf b then true
  else if effective_timestamp conf b < effective_timestamp conf a then false
  else valueLeB (id_value conf a) (id_value conf b)

/-- Insert `a` into `l` in front of the first element it is `le`-below:
the insertion step of the sort standing in for `ORDER BY`. -/
def insertSorted (le : α → α → Bool) (a : α) : List α → List α
  | [] => [a]
  | b :: bs => if le a b then a :: b :: bs else b :: insertSorted le a bs

/-- Insertion sort with a boolean comparison, standing in for the SQL
`ORDER BY` clause. -/
def sortByLe (le : α → α → Bool) : List α → List α
  | [] => []
  | a :: as => insertSorted le a (sortByLe le as)

/-- The whitelist clause of the fetch query: membership of the link field
in `VALID_EVENT_NOS`, or the deliberately unsatisfiable `1=0` when the
whitelist is empty. -/
def whitelist_clause (conf : TableConf) (wl : List String) (r : Row) : Bool :=
  if wl.isEmpty then false
  else
    match link_value conf r with
    | some (.vStr e) => decide (e ∈ wl)
    | _ => false

/-- The keyset-continuation clause: present only when both cursor halves
exist (`if last_checkpoint_time and last_checkpoint_id is not None`),
then `eff > t OR (eff = t AND id > i)`. -/
def keyset_clause (conf : TableConf) (last_checkpoint_time : Option Int)
    (last_checkpoint_id : Option Value) (r : Row) : Bool :=
  match last_checkpoint_time, last_checkpoint_id with
  | some t, some i =>
    decide (t < effective_timestamp conf r) ||
      (decide (effective_timestamp conf r = t) && valueLtB i (id_value conf r))
  | _, _ => true

/-- The source's `fetch_batch`: filter by whitelist clause, effective
timestamp below the window end, and the keyset clause; order by
(effective timestamp, id) ascending; return at most `batch_size` rows.
There is no lower time bound: the function takes no window-start
argument. -/
def fetch_batch (tk : TableKey) (db : List Row) (wl : List String) (end_time : Int)
    (last_checkpoint_time : Option Int) (last_checkpoint_id : Option Value)
    (batch_size : Nat) : List Row :=
  let conf := TABLES_CONFIG tk
  (sortByLe (row_le conf)
      (db.filter fun r =>
        whitelist_clause conf wl r &&
          decide (effective_timestamp conf r < end_time) &&
          keyset_clause conf last_checkpoint_time last_checkpoint_id r)).take
    batch_size

/-- Modelled from the spec: the fetch filter exactly as the specification
states it, including the clause it requires when no cursor exists —
`effectiveTimestamp >= windowStart`.  Used only to compare the
specification's description against `fetch_batch`. -/
def fetch_batch_spec (tk : TableKey) (db : List Row) (wl : List String)
    (window_start end_time : Int) (last_checkpoint_time : Option Int)
    (last_checkpoint_id : Option Value) (batch_size : Nat) : List Row :=
  let conf := TABLES_CONFIG tk
  (sortByLe (row_le conf)
      (db.filter fun r =>
        (match link_value conf r with
          | some (.vStr e) => decide (e ∈ wl)
          | _ => false) &&
          decide (effective_timestamp conf r < end_time) &&
          (match last_checkpoint_time, last_checkpoint_id with
            | some t, some i =>
              decide (t < effective_timestamp conf r) ||
                (decide (effective_timestamp conf r = t) && valueLtB i (id_value conf r))
            | _, _ => decide (window_start ≤ effective_timestamp conf r)))).take
    batch_size

/-- The amended fetch filter: identical to the specification's except
that, when no cursor exists, no lower time bound is applied (matching the
code, whose `fetch_batch` takes no window start at all). -/
def fetch_filter_amended (conf : TableConf) (wl : List String) (end_time : Int)
    (last_checkpoint_time : Option Int) (last_checkpoint_id : Option Value)
    (r : Row) : Bool :=
  (match link_value conf r with
    | some (.vStr e) => decide (e ∈ wl)
    | _ => false) &&
    decide (effective_timestamp conf r < end_time) &&
    (match last_checkpoint_time, last_checkpoint_id with
      | some t, some i =>
        decide (t < effective_timestamp conf r) ||
          (decide (effective_timestamp conf r = t) && valueLtB i (id_value conf r))
      | _, _ => true)

/-- Python `str.title()` restricted to what it does on ASCII text:
an alphabetic character is uppercased when it does not follow an
alphabetic character and lowercased otherwise.  The boolean argument says
whether the previous character was alphabetic. -/
def pyTitleAux : List Char → Bool → List Char
  | [], _ => []
  | c :: cs, prevAlpha =>
    (if c.isAlpha then (if prevAlpha then c.toLower else c.toUpper) else c) ::
      pyTitleAux cs c.isAlpha

/-- Split a character list on underscores (Python `s.split('_')`; the
result always has at least one, possibly empty, component). -/
def splitOnUnderscore : List Char → List (List Char)
  | [] => [[]]
  | c :: cs =>
    let r := splitOnUnderscore cs
    if c = '_' then [] :: r
    else
      match r with
      | [] => [[c]]
      | g :: gs => (c :: g) :: gs

/-- The source's `snake_to_camel`: first component unchanged, the rest
title-cased and joined. -/
def snake_to_camel (s : String) : String :=
  match splitOnUnderscore s.data with
  | [] => s
  | c0 :: rest => String.mk (c0 ++ (rest.map (fun cs => pyTitleAux cs false)).flatten)

/-- Uppercase a string character by character (Python `str.upper()` on
ASCII). -/
def strUpper (s : String) : String := String.mk (s.data.map Char.toUpper)

/-- The source's `normalize_value`.  In this model scalar values already
carry timestamps as integers, and `Decimal`/`date` values are outside the
model's scalar type, so the normalization is the identity. -/
def normalize_value (v : Value) : Value := v

/-- The `'Y'`/`'N'` flag parsing applied inside `transform_row_to_doc` to
string values. -/
def transform_value (v : Value) : Value :=
  match v with
  | .vStr s =>
    if strUpper s = "Y" then .vBool true
    else if strUpper s = "N" then .vBool false
    else .vStr s
  | v => v

/-- The source's `transform_row_to_doc`: camel-case every key, parse
`'Y'`/`'N'` string flags into booleans, normalize values. -/
def transform_row_to_doc (row : Row) : SDoc :=
  row.foldl
    (fun d kv => setField d (snake_to_camel kv.1) (normalize_value (transform_value kv.2))) []

/-- A MongoDB update operation: `$set` of scalar fields or `$addToSet`
of one value, guarded by an equality filter, with or without upsert. -/
inductive UpdateSpec where
  | set (fields : SDoc)
  | addToSet (field : String) (v : Value)
deriving DecidableEq, Repr

/-- One `UpdateOne` request of a bulk write. -/
structure UpdateOne where
  filter : List (String × Value)
  update : UpdateSpec
  upsert : Bool
deriving DecidableEq, Repr

/-- The requests the source's `upsert_batch` loop builds for one row:
one `UpdateOne`, or none when the row is skipped (`continue`).  The
embedded-array branch's final fallback (adding the whole document) is not
reachable for the configured tables and is modelled as a missing
value. -/
def upsert_row_requests (tk : TableKey) (row : Row) : List UpdateOne :=
  let conf := TABLES_CONFIG tk
  let doc := transform_row_to_doc row
  match conf.embed_array_field with
  | some array_field =>
    let event_no := lookupField doc "eventNo"
    if !pyTruthyOpt event_no then []
    else
      let value_to_add :=
        if array_field = "usingBranchIds" then lookupField doc "branch"
        else if array_field = "memberTypes" then lookupField doc "memberType"
        else none
      if !pyTruthyOpt value_to_add then []
      else
        [{ filter := [("eventNo", event_no.getD .vNull)],
            update := .addToSet array_field (value_to_add.getD .vNull),
            upsert := false }]
  | none =>
    if tk = TableKey.hcc_events then
      let event_no := lookupField doc "eventNo"
      if !pyTruthyOpt event_no then []
      else
        [{ filter := [("eventNo", event_no.getD .vNull)],
            update := .set (eraseField (eraseField doc "eventNo") "addDate"),
            upsert := false }]
    else if tk = TableKey.attendees then
      [{ filter :=
            [("eventNo", (lookupField doc "eventNo").getD .vNull),
              ("appId", (lookupField doc "appId").getD .vNull)],
          update := .set doc, upsert := true }]
    else
      let id_field_camel := snake_to_camel conf.id_field
      match lookupField doc id_field_camel with
      | none => []
      | some v =>
        [{ filter := [(id_field_camel, v)], update := .set doc, upsert := true }]

/-- The source's `upsert_batch`, as the list of `UpdateOne` requests it
builds for a batch of rows, one (or zero, on a `continue`) per row in
order (requests are applied by `bulk_write`). -/
def upsert_batch (tk : TableKey) (rows : List Row) : List UpdateOne :=
  (rows.map (upsert_row_requests tk)).flatten

/-- Whether a document satisfies an equality filter; a missing field
matches a null filter value, as in MongoDB. -/
def docMatches (d : Doc) (flt : List (String × Value)) : Bool :=
  flt.all fun kv => decide ((lookupField d kv.1).getD (.scalar .vNull) = .scalar kv.2)

/-- Apply a `$set` of scalar fields to a document. -/
def applySet (d : Doc) (fields : SDoc) : Doc :=
  fields.foldl (fun d kv => setField d kv.1 (.scalar kv.2)) d

/-- Apply `$addToSet`: create a one-element array on a missing field, add
the value to an array field only if absent, and leave a non-array field
unchanged (MongoDB would fail that operation; its document is
unchanged either way). -/
def applyAddToSet (d : Doc) (f : String) (v : Value) : Doc :=
  match lookupField d f with
  | none => setField d f (.arr [v])
  | some (.arr xs) => if decide (v ∈ xs) then d else setField d f (.arr (xs ++ [v]))
  | some (.scalar _) => d

/-- Apply one update specification to a document. -/
def applyUpdate (d : Doc) : UpdateSpec → Doc
  | .set fields => applySet d fields
  | .addToSet f v => applyAddToSet d f v

/-- The document MongoDB builds from an equality filter when an upsert
inserts (the update is then applied on top of it). -/
def docOfFilter (flt : List (String × Value)) : Doc :=
  flt.map fun kv => (kv.1, .scalar kv.2)

/-- Apply one `UpdateOne` to a collection: update the first matching
document in place; on no match, insert a document derived from the filter
when `upsert` is set, otherwise change nothing. -/
def applyUpdateOne : List Doc → UpdateOne → List Doc
  | [], u => if u.upsert then [applyUpdate (docOfFilter u.filter) u.update] else []
  | d :: rest, u =>
    if docMatches d u.filter then applyUpdate d u.update :: rest
    else d :: applyUpdateOne rest u

/-- `bulk_write`: apply the requests of a batch to a collection. -/
def bulk_write (coll : List Doc) (reqs : List UpdateOne) : List Doc :=
  reqs.foldl applyUpdateOne coll

/-- Window status. -/
inductive Status where
  | pending
  | in_progress
  | completed
deriving DecidableEq, Repr

/-- Window mode. -/
inductive Mode where
  | full
  | incremental
deriving DecidableEq, Repr

/-- One checkpoint window.  `last_checkpoint_id` holds the serialized
(`str()`-ed) cursor id exactly as persisted in `checkpoint.json`; an
`Option` field is `none` where the JSON object lacks the key or holds
null.  The `owner` hostname field is bookkeeping only and is omitted. -/
structure Window where
  start : Int
  endTime : Int
  status : Status
  mode : Mode
  last_checkpoint_time : Option Int
  last_checkpoint_id : Option String
  processed_count : Nat
  finish_exec_time : Option Int
deriving DecidableEq, Repr

/-- The identity `update_checkpoint_window` matches windows by:
`start`, `end` and `mode`. -/
abbrev WinKey := Int × Int × Mode

/-- The matching key of a window. -/
def winKey (w : Window) : WinKey := (w.start, w.endTime, w.mode)

/-- The checkpoint store: entity name to its `base_windows` list (the
only window list the source ever creates or scans). -/
abbrev Store := TableKey → List Window

/-- The in-place mutation `update_checkpoint_window` performs on the
matched window: new cursor (id serialized with `str()`), incremented
processed count, new status, and — on completion — the finish time. -/
def applyWindowUpdate (now : Int) (new_checkpoint_time : Option Int)
    (new_checkpoint_id : Option Value) (processed_count_delta : Nat) (status : Status)
    (w : Window) : Window :=
  let w2 :=
    { w with
      last_checkpoint_time := new_checkpoint_time,
      last_checkpoint_id := new_checkpoint_id.map pyStr,
      processed_count := w.processed_count + processed_count_delta,
      status := status }
  if status = .completed then { w2 with finish_exec_time := some now } else w2

/-- Update the first window of a list whose key matches (the source loop
breaks after the first match). -/
def update_window_list (now : Int) (key : WinKey) (new_checkpoint_time : Option Int)
    (new_checkpoint_id : Option Value) (processed_count_delta : Nat) (status : Status) :
    List Window → List Window
  | [] => []
  | w :: ws =>
    if winKey w = key then
      applyWindowUpdate now new_checkpoint_time new_checkpoint_id processed_count_delta
          status w ::
        ws
    else
      w ::
        update_window_list now key new_checkpoint_time new_checkpoint_id
          processed_count_delta status ws

/-- The source's `update_checkpoint_window` followed by
`save_checkpoint`: mutate the matched window of one entity and persist
(persistence is the store itself in this model). -/
def update_checkpoint_window (now : Int) (tk : TableKey) (key : WinKey)
    (new_checkpoint_time : Option Int) (new_checkpoint_id : Option Value)
    (processed_count_delta : Nat) (status : Status) (store : Store) : Store :=
  fun tk2 =>
    if tk2 = tk then
      update_window_list now key new_checkpoint_time new_checkpoint_id
        processed_count_delta status (store tk)
    else store tk2

/-- The sink: the two MongoDB collections the configured entities write
to (`events` and `event_attendees`). -/
structure MongoState where
  events : List Doc
  event_attendees : List Doc
deriving DecidableEq, Repr

/-- The collection an entity writes to (`mongo_dbs[table_key]`). -/
def mongoColl (m : MongoState) (tk : TableKey) : List Doc :=
  if (TABLES_CONFIG tk).mongo_collection = "event_attendees" then m.event_attendees
  else m.events

/-- Replace an entity's collection. -/
def mongoSetColl (m : MongoState) (tk : TableKey) (coll : List Doc) : MongoState :=
  if (TABLES_CONFIG tk).mongo_collection = "event_attendees" then
    { m with event_attendees := coll }
  else { m with events := coll }

/-- The injected outcome of one engine-loop iteration: the batch runs
normally, the source driver raises (`psycopg2.Error`), or any other
exception is raised during the iteration. -/
inductive BatchOutcome where
  | ok
  | pgErr
  | otherErr
deriving DecidableEq, Repr

/-- The mutable state of `migrate_table_window`'s loop. -/
structure EngineState where
  last_t : Option Int
  last_id : Option Value
  processed_since_resume : Nat
  consecutive_errors : Nat
  store : Store
  mongo : MongoState

/-- How one loop iteration ended, beyond continuing. -/
inductive StopKind where
  | completedS
  | raisedS
deriving DecidableEq, Repr

/-- Derive the next cursor from the last row of a batch:
`row.get(mod_date) or row.get(add_date)` (timestamps are datetimes, so
only NULL falls through), and the primary key; produce nothing — the
`ValueError` path — when the timestamp or the id is missing or null. -/
def new_cursor (conf : TableConf) (r : Row) : Option (Int × Value) :=
  let timeKey : Option Value :=
    match lookupField r conf.mod_date_field with
    | none => lookupField r conf.add_date_field
    | some .vNull => lookupField r conf.add_date_field
    | some v => some v
  match timeKey, lookupField r conf.id_field with
  | some (.vInt t), some i => if i = .vNull then none else some (t, i)
  | _, _ => none

/-- One iteration of `migrate_table_window`'s `while True` loop: fetch,
upsert, advance the cursor and checkpoint on success; count consecutive
errors otherwise, turning the window `pending` and re-raising on the
fifth consecutive error — except that a source-driver error only rolls
back and retries, without ever reaching the threshold check. -/
def migrate_step (now : Int) (tk : TableKey) (db : List Row) (wl : List String)
    (wEnd : Int) (key : WinKey) (outcome : BatchOutcome) (st : EngineState) :
    EngineState × Option StopKind :=
  match outcome with
  | .pgErr => ({ st with consecutive_errors := st.consecutive_errors + 1 }, none)
  | .otherErr =>
    let n := st.consecutive_errors + 1
    if 5 ≤ n then
      ({ st with
          consecutive_errors := n,
          store := update_checkpoint_window now tk key st.last_t st.last_id 0 .pending
            st.store },
        some .raisedS)
    else ({ st with consecutive_errors := n }, none)
  | .ok =>
    let conf := TABLES_CONFIG tk
    match fetch_batch tk db wl wEnd st.last_t st.last_id BATCH_SIZE with
    | [] =>
      ({ st with
          store := update_checkpoint_window now tk key st.last_t st.last_id 0 .completed
            st.store },
        some .completedS)
    | r0 :: rest =>
      let rows := r0 :: rest
      let mongo2 := mongoSetColl st.mongo tk
        (bulk_write (mongoColl st.mongo tk) (upsert_batch tk rows))
      match new_cursor conf (rest.getLastD r0) with
      | none =>
        -- the `ValueError` on a corrupt last row is raised after the
        -- upserts were already applied and is caught by the generic
        -- exception handler
        let n := st.consecutive_errors + 1
        if 5 ≤ n then
          ({ st with
              mongo := mongo2,
              consecutive_errors := n,
              store := update_checkpoint_window now tk key st.last_t st.last_id 0 .pending
                st.store },
            some .raisedS)
        else ({ st with mongo := mongo2, consecutive_errors := n }, none)
      | some (t, i) =>
        ({ last_t := some t,
            last_id := some i,
            processed_since_resume := st.processed_since_resume + rows.length,
            consecutive_errors := 0,
            store := update_checkpoint_window now tk key (some t) (some i) rows.length
              .in_progress st.store,
            mongo := mongo2 },
          none)

/-- How a window run ended. -/
inductive RunOutcome where
  | completedW
  | raisedE
  | outOfFuel
deriving DecidableEq, Repr

/-- Result of running one window: outcome plus final store and sink. -/
structure RunResult where
  outcome : RunOutcome
  store : Store
  mongo : MongoState

/-- The engine loop, on fuel, consuming one scheduled batch outcome per
iteration (an exhausted schedule means every later batch succeeds). -/
def run_window_loop (now : Int) (tk : TableKey) (db : List Row) (wl : List String)
    (wEnd : Int) (key : WinKey) :
    Nat → List BatchOutcome → EngineState → RunResult
  | 0, _, st => ⟨.outOfFuel, st.store, st.mongo⟩
  | fuel + 1, schedule, st =>
    match migrate_step now tk db wl wEnd key (schedule.headD .ok) st with
    | (st2, some .completedS) => ⟨.completedW, st2.store, st2.mongo⟩
    | (st2, some .raisedS) => ⟨.raisedE, st2.store, st2.mongo⟩
    | (st2, none) => run_window_loop now tk db wl wEnd key fuel schedule.tail st2

/-- The source's `migrate_table_window`: read the window's cursor (the
reloaded id is the serialized string), mark the window `in_progress`,
then run the loop. -/
def migrate_table_window (now : Int) (tk : TableKey) (db : List Row) (wl : List String)
    (w : Window) (fuel : Nat) (schedule : List BatchOutcome) (store : Store)
    (mongo : MongoState) : RunResult :=
  let key := winKey w
  let lastT := w.last_checkpoint_time
  let lastI := w.last_checkpoint_id.map Value.vStr
  run_window_loop now tk db wl w.endTime key fuel schedule
    { last_t := lastT, last_id := lastI, processed_since_resume := 0,
      consecutive_errors := 0,
      store := update_checkpoint_window now tk key lastT lastI 0 .in_progress store,
      mongo := mongo }

/-- Why an orchestrated run stopped before finishing all entities: an
exception propagated out of the engine (the source process exits), or
the model ran out of fuel. -/
inductive OrchHalt where
  | raisedHalt
  | fuelHalt
deriving DecidableEq, Repr

/-- Result of an orchestrated run: the final store and sink, the (table,
window) pairs the Window Engine was invoked on, in order, and whether the
run halted early. -/
structure OrchResult where
  store : Store
  mongo : MongoState
  invoked : List (TableKey × Window)
  halt : Option OrchHalt

/-- The fixed entity order every command processes tables in. -/
def execution_order : List TableKey :=
  [.events, .hcc_events, .attendees, .coupon_burui, .member_types]

/-- `"9999-12-31T23:59:59Z"`, the open-ended end of a full-sync
window. -/
def FAR_FUTURE : Int := 253402300799

/-- The window `command_full_sync` creates for every entity. -/
def full_window : Window :=
  { start := 0, endTime := FAR_FUTURE, status := .pending, mode := .full,
    last_checkpoint_time := some 0, last_checkpoint_id := none, processed_count := 0,
    finish_exec_time := none }

/-- Fold one engine run into an orchestrated run's state. -/
def orchRunWindow (now : Int) (db : TableKey → List Row) (wl : List String)
    (fuel : Nat) (schedules : TableKey → List BatchOutcome) (tk : TableKey)
    (w : Window) (acc : OrchResult) : OrchResult :=
  let acc2 := { acc with invoked := acc.invoked ++ [(tk, w)] }
  match migrate_table_window now tk (db tk) wl w fuel (schedules tk) acc.store acc.mongo with
  | ⟨.completedW, s, m⟩ => { acc2 with store := s, mongo := m }
  | ⟨.raisedE, s, m⟩ => { acc2 with store := s, mongo := m, halt := some .raisedHalt }
  | ⟨.outOfFuel, s, m⟩ => { acc2 with store := s, mongo := m, halt := some .fuelHalt }

/-- The entity loop of `command_full_sync`: run each table's (single)
full window; an exception aborts the remaining entities, since nothing
catches it before `main`. -/
def full_sync_go (now : Int) (db : TableKey → List Row) (wl : List String) (fuel : Nat)
    (schedules : TableKey → List BatchOutcome) : List TableKey → OrchResult → OrchResult
  | [], acc => acc
  | tk :: tks, acc =>
    match acc.halt with
    | some _ => acc
    | none =>
      match (acc.store tk).head? with
      | none => full_sync_go now db wl fuel schedules tks acc
      | some w =>
        full_sync_go now db wl fuel schedules tks
          (orchRunWindow now db wl fuel schedules tk w acc)

/-- The source's `command_full_sync`: wipe the checkpoint data, create
one pending full window per entity, then run the entities in
`execution_order` on each table's first window. -/
def command_full_sync (now : Int) (db : TableKey → List Row) (wl : List String)
    (mongo0 : MongoState) (fuel : Nat) (schedules : TableKey → List BatchOutcome) :
    OrchResult :=
  full_sync_go now db wl fuel schedules execution_order
    { store := fun _ => [full_window], mongo := mongo0, invoked := [], halt := none }

/-- Python `max(xs, key=...)` over a non-empty list: the first element of
maximal key. -/
def pyMaxBy (key : α → Int) : α → List α → α
  | best, [] => best
  | best, x :: xs => pyMaxBy key (if key best < key x then x else best) xs

/-- The source's `get_latest_checkpoint_for_table`: among the given
table's completed windows, take the one with the greatest
`finish_exec_time` (missing treated as epoch) and return its cursor;
with no completed window, return the epoch and a null id. -/
def get_latest_checkpoint_for_table (store : Store) (tk : TableKey) :
    Int × Option String :=
  match (store tk).filter (fun w => decide (w.status = .completed)) with
  | [] => (0, none)
  | w0 :: ws =>
    let latest := pyMaxBy (fun w => w.finish_exec_time.getD 0) w0 ws
    (latest.last_checkpoint_time.getD 0, latest.last_checkpoint_id)

/-- The incremental window `command_incremental` appends for one entity:
from that entity's own latest completed cursor through now, carrying the
cursor as the new window's start and initial checkpoint. -/
def make_incremental_window (store : Store) (tk : TableKey) (now : Int) : Window :=
  let c := get_latest_checkpoint_for_table store tk
  { start := c.1, endTime := now, status := .pending, mode := .incremental,
    last_checkpoint_time := some c.1, last_checkpoint_id := c.2, processed_count := 0,
    finish_exec_time := none }

/-- The entity loop of `command_incremental`: per entity, look up that
entity's own latest checkpoint, append the new incremental window, and
run it; an exception aborts the remaining entities. -/
def incremental_go (now : Int) (db : TableKey → List Row) (wl : List String) (fuel : Nat)
    (schedules : TableKey → List BatchOutcome) : List TableKey → OrchResult → OrchResult
  | [], acc => acc
  | tk :: tks, acc =>
    match acc.halt with
    | some _ => acc
    | none =>
      let w := make_incremental_window acc.store tk now
      let store2 : Store := fun tk2 => if tk2 = tk then acc.store tk ++ [w] else acc.store tk2
      incremental_go now db wl fuel schedules tks
        (orchRunWindow now db wl fuel schedules tk w { acc with store := store2 })

/-- The source's `command_incremental`. -/
def command_incremental (now : Int) (db : TableKey → List Row) (wl : List String)
    (mongo0 : MongoState) (fuel : Nat) (schedules : TableKey → List BatchOutcome)
    (store0 : Store) : OrchResult :=
  incremental_go now db wl fuel schedules execution_order
    { store := store0, mongo := mongo0, invoked := [], halt := none }

/-- The window loop of `command_resume` for one entity: visit the
table's windows in order (reading the live store, as the source iterates
the live list) and re-run every window whose status is `pending` or
`in_progress`.  The countdown argument is the number of windows still to
visit; resuming never appends windows, so it starts as the list
length. -/
def resume_table_go (now : Int) (tk : TableKey) (db : TableKey → List Row)
    (wl : List String) (fuel : Nat) (schedules : TableKey → List BatchOutcome)
    (i : Nat) : Nat → OrchResult → OrchResult
  | 0, acc => acc
  | n + 1, acc =>
    match acc.halt with
    | some _ => acc
    | none =>
      match (acc.store tk).get? i with
      | none => acc
      | some w =>
        if w.status = .pending ∨ w.status = .in_progress then
          resume_table_go now tk db wl fuel schedules (i + 1) n
            (orchRunWindow now db wl fuel schedules tk w acc)
        else resume_table_go now tk db wl fuel schedules (i + 1) n acc

/-- The entity loop of `command_resume`. -/
def resume_go (now : Int) (db : TableKey → List Row) (wl : List String) (fuel : Nat)
    (schedules : TableKey → List BatchOutcome) : List TableKey → OrchResult → OrchResult
  | [], acc => acc
  | tk :: tks, acc =>
    match acc.halt with
    | some _ => acc
    | none =>
      resume_go now db wl fuel schedules tks
        (resume_table_go now tk db wl fuel schedules 0 (acc.store tk).length acc)

/-- The source's `command_resume`. -/
def command_resume (now : Int) (db : TableKey → List Row) (wl : List String)
    (mongo0 : MongoState) (fuel : Nat) (schedules : TableKey → List BatchOutcome)
    (store0 : Store) : OrchResult :=
  resume_go now db wl fuel schedules execution_order
    { store := store0, mongo := mongo0, invoked := [], halt := none }

/-- The source's `load_valid_event_nos`: the whitelist is every
`event_no` of `gif_event` with prefix `HCC`; the second component records
that the empty-whitelist warning was logged. -/
def load_valid_event_nos (gif_event_rows : List Row) : List String × Bool :=
  let wl :=
    gif_event_rows.filterMap fun r =>
      match lookupField r "event_no" with
      | some (Value.vStr e) => if "HCC".data.isPrefixOf e.data then some e else none
      | _ => none
  (wl, wl.isEmpty)

/-- Source-side count of `verify_consistency` for one entity: rows in the
whitelist; for `coupon_burui`, distinct `(event_no, branch)` pairs with a
non-null, non-empty branch. -/
def pg_verification_count (tk : TableKey) (db : List Row) (wl : List String) : Nat :=
  let conf := TABLES_CONFIG tk
  if tk = TableKey.coupon_burui then
    (db.filterMap fun r =>
        match lookupField r "event_no", lookupField r "branch" with
        | some (Value.vStr e), some (Value.vStr b) =>
          if decide (e ∈ wl) && decide (b ≠ "") then some (e, b) else none
        | _, _ => none).dedup.length
  else
    (db.filter fun r =>
        match link_value conf r with
        | some (.vStr e) => decide (e ∈ wl)
        | _ => false).length

/-- Sink-side count of `verify_consistency` for one entity: matching
documents, or — for embedded-array entities — the summed length of the
embedded arrays over matching documents. -/
def mongo_verification_count (tk : TableKey) (m : MongoState) (wl : List String) : Nat :=
  let conf := TABLES_CONFIG tk
  let matching :=
    (mongoColl m tk).filter fun d =>
      match lookupField d "eventNo" with
      | some (VField.scalar (Value.vStr e)) => decide (e ∈ wl)
      | _ => false
  match conf.embed_array_field with
  | some arrF =>
    (matching.map fun d =>
        match lookupField d arrF with
        | some (.arr xs) => xs.length
        | _ => 0).sum
  | none => matching.length

/-- The source's `verify_consistency`: with an empty whitelist it logs a
warning, skips every check and reports the run consistent; otherwise a
merge-source entity is reported informationally (always consistent) and
every other entity's two counts must agree.  The first component is the
overall verdict, the second whether the empty-whitelist warning was
logged. -/
def verify_consistency (wl : List String) (db : TableKey → List Row) (m : MongoState) :
    Bool × Bool :=
  if wl.isEmpty then (true, true)
  else
    (execution_order.all fun tk =>
        let conf := TABLES_CONFIG tk
        if conf.verification_mode = "merge_source" then true
        else
          decide
            (pg_verification_count tk (db tk) wl = mongo_verification_count tk m wl),
      false)

/-- One file-system operation on the checkpoint file or a would-be
temporary sibling. -/
inductive FsOp where
  | truncateTarget
  | writeTarget (s : String)
  | writeTemp (s : String)
  | renameTempToTarget
deriving DecidableEq, Repr

/-- Contents of the checkpoint file and of the temporary file. -/
structure FsState where
  target : String
  temp : String
deriving DecidableEq, Repr

/-- Apply one file-system operation. -/
def applyFsOp (st : FsState) : FsOp → FsState
  | .truncateTarget => { st with target := "" }
  | .writeTarget s => { st with target := st.target ++ s }
  | .writeTemp s => { st with temp := st.temp ++ s }
  | .renameTempToTarget => { target := st.temp, temp := "" }

/-- Apply a sequence of file-system operations. -/
def applyFsOps (st : FsState) (ops : List FsOp) : FsState := ops.foldl applyFsOp st

/-- The file operations `save_checkpoint` performs for a serialized
checkpoint state: `open(CHECKPOINT_FILE, "w")` truncates the target in
place, then `json.dump` writes into it — no temporary file and no
rename. -/
def save_checkpoint_ops (serialized : String) : List FsOp :=
  [.truncateTarget, .writeTarget serialized]

/-- A write sequence is atomic when a crash after any prefix leaves the
checkpoint file holding either the complete old or the complete new
content. -/
def atomic_write (ops : List FsOp) (oldContent newContent : String) : Prop :=
  ∀ k,
    (applyFsOps { target := oldContent, temp := "" } (ops.take k)).target = oldContent ∨
      (applyFsOps { target := oldContent, temp := "" } (ops.take k)).target = newContent

/-- Whether a request is an add-to-set request. -/
def isAddReq (u : UpdateOne) : Bool :=
  match u.update with
  | .addToSet _ _ => true
  | .set _ => false

/-- Two equality filters clash when they bind a common key to different
values, so that no document can match both. -/
def filtersClash (f1 f2 : List (String × Value)) : Bool :=
  f1.any fun kv => f2.any fun kv2 => decide (kv.1 = kv2.1) && decide (kv.2 ≠ kv2.2)

/-- Compatibility of two requests of one batch, as idempotent replay
requires: they are the same request, or both add-to-set under the same
filter, or their filters clash so they can never touch the same
document.  Any batch fetched with distinct primary keys satisfies this
pairwise. -/
def reqCompat (u u2 : UpdateOne) : Bool :=
  decide (u = u2) ||
    (decide (u.filter = u2.filter) && isAddReq u && isAddReq u2) ||
    filtersClash u.filter u2.filter

/-- Well-formedness of a generated request (proved below for everything
`upsert_batch` builds): filter keys are distinct, a `$set` payload has
distinct keys and never moves a filtered field away from its filter
value, and an add-to-set request never upserts and never adds to a
filtered field. -/
def goodReq (u : UpdateOne) : Prop :=
  (keysOf u.filter).Nodup ∧
    match u.update with
    | .set L =>
      (keysOf L).Nodup ∧
        ∀ kv ∈ u.filter, lookupField L kv.1 = some kv.2 ∨ lookupField L kv.1 = none
    | .addToSet f _ => u.upsert = false ∧ ∀ kv ∈ u.filter, kv.1 ≠ f

/-- One window list evolved from another while touching only windows of
one matching key: the key sequence is unchanged and every window of a
different key is untouched at its position. -/
def preservesW (key : WinKey) (ws ws2 : List Window) : Prop :=
  ws2.map winKey = ws.map winKey ∧
    ∀ j w, ws.get? j = some w → winKey w ≠ key → ws2.get? j = some w

/-!
Theorems.  General-purpose lemmas about the association-list and sorting
helpers come first, then the per-claim results.
-/

theorem lookupField_setField_self {d : List (String × α)} {k : String} {v : α}
    (h : lookupField d k = some v) : setField d k v = d := by
  induction d with
  | nil => simp [lookupField] at h
  | cons kv rest ih =>
    obtain ⟨k1, v1⟩ := kv
    by_cases hk : k1 = k
    · subst hk
      simp [lookupField] at h
      simp [setField, h]
    · simp [lookupField, hk] at h
      simp [setField, hk, ih h]

theorem lookupField_setField_same (d : List (String × α)) (k : String) (v : α) :
    lookupField (setField d k v) k = some v := by
  induction d with
  | nil => simp [setField, lookupField]
  | cons kv rest ih =>
    obtain ⟨k1, v1⟩ := kv
    by_cases hk : k1 = k
    · subst hk
      simp [setField, lookupField]
    · simp [setField, hk, lookupField, hk, ih]

theorem lookupField_setField_ne {k2 k : String} (d : List (String × α)) (v : α)
    (h : k2 ≠ k) : lookupField (setField d k v) k2 = lookupField d k2 := by
  induction d with
  | nil => simp [setField, lookupField, Ne.symm h]
  | cons kv rest ih =>
    obtain ⟨k1, v1⟩ := kv
    by_cases hk : k1 = k
    · subst hk
      simp [setField, lookupField, Ne.symm h]
    · have hstep : setField ((k1, v1) :: rest) k v = (k1, v1) :: setField rest k v := by
        simp [setField, hk]
      rw [hstep]
      by_cases hk2 : k1 = k2 <;> simp [lookupField, hk2, ih]

theorem setField_length_of_not_mem {d : List (String × α)} {k : String}
    (h : lookupField d k = none) (v : α) :
    (setField d k v).length = d.length + 1 := by
  induction d with
  | nil => simp [setField]
  | cons kv rest ih =>
    obtain ⟨k1, v1⟩ := kv
    by_cases hk : k1 = k
    · simp [lookupField, hk] at h
    · simp [lookupField, hk] at h
      simp [setField, hk, ih h]

theorem mem_keysOf_setField {d : List (String × α)} {k k2 : String} {v : α} :
    k2 ∈ keysOf (setField d k v) ↔ k2 = k ∨ k2 ∈ keysOf d := by
  induction d with
  | nil => simp [setField, keysOf]
  | cons kv rest ih =>
    obtain ⟨k1, v1⟩ := kv
    by_cases hk : k1 = k
    · subst hk
      have hstep : setField ((k1, v1) :: rest) k1 v = (k1, v) :: rest := by
        simp [setField]
      rw [hstep]
      simp only [keysOf, List.map_cons, List.mem_cons]
      tauto
    · have hstep : setField ((k1, v1) :: rest) k v = (k1, v1) :: setField rest k v := by
        simp [setField, hk]
      rw [hstep]
      simp only [keysOf, List.map_cons, List.mem_cons]
      rw [show List.map Prod.fst (setField rest k v) = keysOf (setField rest k v) from rfl,
        show List.map Prod.fst rest = keysOf rest from rfl, ih]
      tauto

theorem keysOf_setField_nodup {d : List (String × α)} {k : String} {v : α}
    (h : (keysOf d).Nodup) : (keysOf (setField d k v)).Nodup := by
  induction d with
  | nil => simp [setField, keysOf]
  | cons kv rest ih =>
    obtain ⟨k1, v1⟩ := kv
    by_cases hk : k1 = k
    · subst hk
      simpa [setField, keysOf] using h
    · have h' : (k1 :: keysOf rest).Nodup := h
      rcases List.nodup_cons.1 h' with ⟨h1, h2⟩
      have hrec := ih h2
      have hres : (k1 :: keysOf (setField rest k v)).Nodup := by
        refine List.nodup_cons.2 ⟨?_, hrec⟩
        intro hmem
        rcases mem_keysOf_setField.1 hmem with h3 | h3
        · exact hk h3
        · exact h1 h3
      have hstep : setField ((k1, v1) :: rest) k v = (k1, v1) :: setField rest k v := by
        simp [setField, hk]
      rw [hstep]
      exact hres

theorem eraseField_sublist (d : List (String × α)) (k : String) :
    (eraseField d k).Sublist d := by
  induction d with
  | nil => simp [eraseField]
  | cons kv rest ih =>
    by_cases hk : kv.1 = k
    · simpa [eraseField, hk] using ih.cons kv
    · simpa [eraseField, hk] using ih.cons₂ kv

theorem lookupField_eraseField_self (d : List (String × α)) (k : String) :
    lookupField (eraseField d k) k = none := by
  induction d with
  | nil => simp [eraseField, lookupField]
  | cons kv rest ih =>
    obtain ⟨k1, v1⟩ := kv
    by_cases hk : k1 = k
    · simpa [eraseField, hk] using ih
    · simpa [eraseField, hk, lookupField, hk] using ih

theorem lookupField_eraseField_ne {k2 k : String} (d : List (String × α)) (h : k2 ≠ k) :
    lookupField (eraseField d k) k2 = lookupField d k2 := by
  induction d with
  | nil => simp [eraseField]
  | cons kv rest ih =>
    obtain ⟨k1, v1⟩ := kv
    by_cases hk : k1 = k
    · subst hk
      simp only [eraseField, if_pos rfl, lookupField, if_neg (Ne.symm h)]
      exact ih
    · have hstep : eraseField ((k1, v1) :: rest) k = (k1, v1) :: eraseField rest k := by
        simp [eraseField, hk]
      rw [hstep]
      by_cases hk2 : k1 = k2 <;> simp [lookupField, hk2, ih]

theorem keysOf_eraseField_nodup {d : List (String × α)} {k : String}
    (h : (keysOf d).Nodup) : (keysOf (eraseField d k)).Nodup := by
  have hs : (keysOf (eraseField d k)).Sublist (keysOf d) :=
    (eraseField_sublist d k).map Prod.fst
  exact h.sublist hs

theorem mem_insertSorted {le : α → α → Bool} {a x : α} {l : List α} :
    x ∈ insertSorted le a l ↔ x = a ∨ x ∈ l := by
  induction l with
  | nil => simp [insertSorted]
  | cons b bs ih =>
    by_cases h : le a b = true
    · simp [insertSorted, if_pos h, List.mem_cons]
    · simp only [insertSorted, if_neg h, List.mem_cons, ih]
      tauto

theorem mem_sortByLe {le : α → α → Bool} {x : α} {l : List α} :
    x ∈ sortByLe le l ↔ x ∈ l := by
  induction l with
  | nil => simp [sortByLe]
  | cons a as ih => simp [sortByLe, mem_insertSorted, ih]

theorem pairwise_insertSorted {le : α → α → Bool} {P : α → Prop}
    (htot : ∀ a b, P a → P b → le a b = true ∨ le b a = true)
    (htrans : ∀ a b c, P a → P b → P c → le a b = true → le b c = true → le a c = true)
    {a : α} {l : List α} (hPa : P a) (hPl : ∀ x ∈ l, P x)
    (hl : l.Pairwise (fun x y => le x y = true)) :
    (insertSorted le a l).Pairwise (fun x y => le x y = true) := by
  induction l with
  | nil => simp [insertSorted]
  | cons b bs ih =>
    rcases List.pairwise_cons.1 hl with ⟨hb, hbs⟩
    by_cases hab : le a b = true
    · simp only [insertSorted, if_pos hab]
      refine List.pairwise_cons.2 ⟨?_, hl⟩
      intro x hx
      rcases List.mem_cons.1 hx with rfl | hx
      · exact hab
      · exact htrans a b x hPa (hPl b (List.mem_cons_self b bs)) (hPl x (List.mem_cons_of_mem b hx))
          hab (hb x hx)
    · simp only [insertSorted, if_neg hab]
      have hba : le b a = true :=
        (htot a b hPa (hPl b (List.mem_cons_self b bs))).resolve_left hab
      refine List.pairwise_cons.2 ⟨?_, ?_⟩
      · intro x hx
        rcases mem_insertSorted.1 hx with rfl | hx
        · exact hba
        · exact hb x hx
      · exact ih (fun x hx => hPl x (List.mem_cons_of_mem b hx)) hbs

theorem pairwise_sortByLe {le : α → α → Bool} {P : α → Prop}
    (htot : ∀ a b, P a → P b → le a b = true ∨ le b a = true)
    (htrans : ∀ a b c, P a → P b → P c → le a b = true → le b c = true → le a c = true)
    {l : List α} (hPl : ∀ x ∈ l, P x) :
    (sortByLe le l).Pairwise (fun x y => le x y = true) := by
  induction l with
  | nil => simp [sortByLe]
  | cons a as ih =>
    exact pairwise_insertSorted htot htrans (hPl a (List.mem_cons_self a as))
      (fun x hx => hPl x (List.mem_cons_of_mem a (mem_sortByLe.1 hx)))
      (ih fun x hx => hPl x (List.mem_cons_of_mem a hx))

theorem valueLeB_int (m1 m2 : Int) : valueLeB (.vInt m1) (.vInt m2) = true ↔ m1 ≤ m2 := by
  simp [valueLeB, valueLtB]

theorem row_le_total_of_int (conf : TableConf) (a b : Row)
    (ha : ∃ m : Int, id_value conf a = .vInt m) (hb : ∃ m : Int, id_value conf b = .vInt m) :
    row_le conf a b = true ∨ row_le conf b a = true := by
  obtain ⟨ma, hma⟩ := ha
  obtain ⟨mb, hmb⟩ := hb
  rcases lt_trichotomy (effective_timestamp conf a) (effective_timestamp conf b) with
    h | h | h
  · left
    rw [row_le, if_pos h]
  · by_cases hle : ma ≤ mb
    · left
      rw [row_le, if_neg (by omega), if_neg (by omega), hma, hmb]
      exact (valueLeB_int ma mb).2 hle
    · right
      rw [row_le, if_neg (by omega), if_neg (by omega), hma, hmb]
      exact (valueLeB_int mb ma).2 (by omega)
  · right
    rw [row_le, if_pos h]

theorem row_le_true_iff (conf : TableConf) (a b : Row) :
    row_le conf a b = true ↔
      (effective_timestamp conf a < effective_timestamp conf b ∨
        (¬effective_timestamp conf a < effective_timestamp conf b ∧
          ¬effective_timestamp conf b < effective_timestamp conf a ∧
          valueLeB (id_value conf a) (id_value conf b) = true)) := by
  rw [row_le]
  split_ifs with h1 h2
  · simp [h1]
  · simp [h1, h2]
  · simp [h1, h2]

theorem row_le_trans_of_int (conf : TableConf) (a b c : Row)
    (ha : ∃ m : Int, id_value conf a = .vInt m) (hb : ∃ m : Int, id_value conf b = .vInt m)
    (hc : ∃ m : Int, id_value conf c = .vInt m) (hab : row_le conf a b = true)
    (hbc : row_le conf b c = true) : row_le conf a c = true := by
  obtain ⟨ma, hma⟩ := ha
  obtain ⟨mb, hmb⟩ := hb
  obtain ⟨mc, hmc⟩ := hc
  rw [row_le_true_iff, hma, hmb, valueLeB_int] at hab
  rw [row_le_true_iff, hmb, hmc, valueLeB_int] at hbc
  rw [row_le_true_iff, hma, hmc, valueLeB_int]
  omega

theorem whitelist_clause_eq (conf : TableConf) (wl : List String) (r : Row) :
    whitelist_clause conf wl r =
      (match link_value conf r with
        | some (.vStr e) => decide (e ∈ wl)
        | _ => false) := by
  cases wl with
  | nil =>
    simp only [whitelist_clause, List.isEmpty_nil, if_true]
    cases h : link_value conf r with
    | none => rfl
    | some v => cases v <;> simp
  | cons a l => rfl

/-- Claim C1, counterexample: the specification's fetch filter demands
`effectiveTimestamp >= windowStart` when no cursor exists, but
`fetch_batch` has no window-start argument and applies no lower bound: a
whitelisted row with effective timestamp `3` is returned by the code
although the specification's filter for a window starting at `5`
excludes it. -/
theorem fetch_batch_no_window_start_counterexample :
    fetch_batch .events [[("event_no", Value.vStr "HCC1"), ("add_date", Value.vInt 3)]]
        ["HCC1"] 10 none none 100
      = [[("event_no", Value.vStr "HCC1"), ("add_date", Value.vInt 3)]]
    ∧ fetch_batch_spec .events [[("event_no", Value.vStr "HCC1"), ("add_date", Value.vInt 3)]]
        ["HCC1"] 5 10 none none 100
      = [] := by
  constructor <;> rfl

/-- Claim C1, amended: `fetch_batch` returns at most `batch_size` rows,
ordered ascending by `(effectiveTimestamp, id)` (stated for integer
primary keys, where the order is total), and its filter is the
conjunction of whitelist membership of the link field, `effectiveTimestamp
< windowEnd` and — only when a cursor exists — the keyset clause
`eff > cursorTime OR (eff = cursorTime AND id > cursorID)`; when no
cursor exists, no lower time bound is applied. -/
theorem fetch_batch_amended_characterization (tk : TableKey) (db : List Row)
    (wl : List String) (end_time : Int) (lastT : Option Int) (lastI : Option Value)
    (n : Nat) :
    fetch_batch tk db wl end_time lastT lastI n
        = (sortByLe (row_le (TABLES_CONFIG tk))
            (db.filter
              (fetch_filter_amended (TABLES_CONFIG tk) wl end_time lastT lastI))).take n
      ∧ (fetch_batch tk db wl end_time lastT lastI n).length ≤ n
      ∧ ((∀ r ∈ db, ∃ m : Int, id_value (TABLES_CONFIG tk) r = .vInt m) →
          (fetch_batch tk db wl end_time lastT lastI n).Pairwise
            (fun a b => row_le (TABLES_CONFIG tk) a b = true)) := by
  have hfilter :
      (db.filter fun r =>
          whitelist_clause (TABLES_CONFIG tk) wl r &&
            decide (effective_timestamp (TABLES_CONFIG tk) r < end_time) &&
            keyset_clause (TABLES_CONFIG tk) lastT lastI r)
        = db.filter (fetch_filter_amended (TABLES_CONFIG tk) wl end_time lastT lastI) := by
    apply List.filter_congr
    intro r hr
    rw [whitelist_clause_eq]
    rfl
  have heq : fetch_batch tk db wl end_time lastT lastI n
      = (sortByLe (row_le (TABLES_CONFIG tk))
          (db.filter
            (fetch_filter_amended (TABLES_CONFIG tk) wl end_time lastT lastI))).take n := by
    rw [fetch_batch, hfilter]
  refine ⟨heq, ?_, ?_⟩
  · rw [heq, List.length_take]
    exact min_le_left _ _
  · intro hids
    rw [heq]
    refine List.Pairwise.sublist (List.take_sublist _ _) ?_
    refine pairwise_sortByLe
      (P := fun r => ∃ m : Int, id_value (TABLES_CONFIG tk) r = .vInt m)
      (row_le_total_of_int (TABLES_CONFIG tk)) (row_le_trans_of_int (TABLES_CONFIG tk))
      ?_
    intro x hx
    exact hids x (List.mem_of_mem_filter hx)

/-- Claim C1, witness for the amended characterization at a concrete
integer-keyed table. -/
theorem fetch_batch_amended_characterization_witness :
    (fetch_batch .attendees
        [[("event_no", Value.vStr "HCC1"), ("add_date", Value.vInt 9), ("id", Value.vInt 7)],
          [("event_no", Value.vStr "HCC1"), ("add_date", Value.vInt 4), ("id", Value.vInt 8)]]
        ["HCC1"] 10 none none 100).Pairwise
      (fun a b => row_le (TABLES_CONFIG .attendees) a b = true) :=
  (fetch_batch_amended_characterization .attendees
      [[("event_no", Value.vStr "HCC1"), ("add_date", Value.vInt 9), ("id", Value.vInt 7)],
        [("event_no", Value.vStr "HCC1"), ("add_date", Value.vInt 4), ("id", Value.vInt 8)]]
      ["HCC1"] 10 none none 100).2.2
    (by
      intro r hr
      simp only [List.mem_cons, List.not_mem_nil, or_false] at hr
      rcases hr with rfl | rfl
      · exact ⟨7, rfl⟩
      · exact ⟨8, rfl⟩)

/-- Claim C9, counterexample: `save_checkpoint` truncates the checkpoint
file in place and then writes into it; crashing right after the
truncation leaves an empty file, which is neither the old nor the new
content, so the write sequence is not atomic. -/
theorem save_checkpoint_not_atomic :
    ¬atomic_write (save_checkpoint_ops "newdata") "olddata" "newdata" := by
  intro h
  have h1 := h 1
  revert h1
  decide

/-- Claim C9, amended: `save_checkpoint` writes the serialized state
directly into the checkpoint file — truncate, then write, with no
temporary file and no rename — so an uninterrupted write leaves exactly
the new content, but a crash between the truncation and the write leaves
a truncated (empty) file. -/
theorem save_checkpoint_direct_write (old s : String) :
    (applyFsOps { target := old, temp := "" } (save_checkpoint_ops s)).target = s
    ∧ FsOp.renameTempToTarget ∉ save_checkpoint_ops s
    ∧ (applyFsOps { target := old, temp := "" } ((save_checkpoint_ops s).take 1)).target
        = "" := by
  refine ⟨?_, ?_, rfl⟩
  · simp [applyFsOps, save_checkpoint_ops, applyFsOp]
  · simp [save_checkpoint_ops]

/-- Claim C8, counterexample: the checkpoint serializes a numeric cursor
id with `str()` (the window stored after a batch ending at id `10` holds
the string `"10"`), and comparing the reloaded string ids
lexicographically disagrees with the native numeric order at ids `9`
and `10`. -/
theorem checkpoint_id_serialization_counterexample :
    (update_window_list 0 (winKey full_window) (some 5) (some (.vInt 10)) 1 .in_progress
          [full_window]).map (fun w => w.last_checkpoint_id)
        = [some "10"]
      ∧ valueLtB (.vInt 9) (.vInt 10) = true
      ∧ lexLtB (pyStr (.vInt 9)).data (pyStr (.vInt 10)).data = false := by
  refine ⟨rfl, by decide, by decide⟩

/-- Claim C8, amended: the persisted `lastCheckpointID` is the `str()`
serialization of the native id; for string primary keys this is the
identity, so comparing reloaded ids agrees with the native order, while
for numeric keys the lexicographic order of the serialized decimal
strings can disagree with the numeric order (see the counterexample) and
the native order is only recovered when the consumer casts the string
back to the numeric column type, as the fetch query does. -/
theorem checkpoint_id_serialization_amended (now : Int) (t : Option Int)
    (i : Option Value) (delta : Nat) (stt : Status) (w : Window) (s1 s2 : String) :
    (applyWindowUpdate now t i delta stt w).last_checkpoint_id = i.map pyStr
    ∧ pyStr (.vStr s1) = s1
    ∧ lexLtB (pyStr (.vStr s1)).data (pyStr (.vStr s2)).data = lexLtB s1.data s2.data
    ∧ valueLtB (.vStr (pyStr (.vInt 9))) (.vInt 10) = true := by
  refine ⟨?_, rfl, rfl, by decide⟩
  rw [applyWindowUpdate]
  split <;> rfl

/-- Claim C7: when the whitelist loads empty, the loader logs a warning
(and does not fail), every subsequent fetch for every entity returns zero
rows (the filter is made unsatisfiable), and the consistency verifier
reports the run consistent (with the warning logged). -/
theorem empty_whitelist_noop (gif_event_rows : List Row) (db : TableKey → List Row)
    (m : MongoState) (h : (load_valid_event_nos gif_event_rows).1 = []) :
    (load_valid_event_nos gif_event_rows).2 = true
    ∧ (∀ (tk : TableKey) (dbt : List Row) (end_time : Int) (lastT : Option Int)
        (lastI : Option Value) (n : Nat),
        fetch_batch tk dbt (load_valid_event_nos gif_event_rows).1 end_time lastT lastI n
          = [])
    ∧ verify_consistency (load_valid_event_nos gif_event_rows).1 db m = (true, true) := by
  rw [h]
  refine ⟨?_, ?_, rfl⟩
  · have : (load_valid_event_nos gif_event_rows).2
        = (load_valid_event_nos gif_event_rows).1.isEmpty := rfl
    rw [this, h]
    rfl
  · intro tk dbt end_time lastT lastI n
    have hpred : ∀ r ∈ dbt,
        (whitelist_clause (TABLES_CONFIG tk) [] r &&
          decide (effective_timestamp (TABLES_CONFIG tk) r < end_time) &&
          keyset_clause (TABLES_CONFIG tk) lastT lastI r) = false := by
      intro r hr
      simp [whitelist_clause]
    rw [fetch_batch]
    rw [List.filter_eq_nil_iff.2 (by intro r hr; simp [hpred r hr])]
    simp [sortByLe]

/-- Claim C7, witness: a source table whose only event number does not
start with `HCC` loads an empty whitelist; the conclusion is evaluated at
the `events` entity on a one-row table. -/
theorem empty_whitelist_noop_witness :
    (load_valid_event_nos [[("event_no", Value.vStr "ABC")]]).2 = true
    ∧ fetch_batch .events [[("event_no", Value.vStr "ABC"), ("add_date", Value.vInt 1)]]
        (load_valid_event_nos [[("event_no", Value.vStr "ABC")]]).1 10 none none 100 = []
    ∧ verify_consistency (load_valid_event_nos [[("event_no", Value.vStr "ABC")]]).1
        (fun _ => []) ⟨[], []⟩ = (true, true) := by
  have h := empty_whitelist_noop [[("event_no", Value.vStr "ABC")]] (fun _ => [])
    ⟨[], []⟩ (by decide)
  exact ⟨h.1, h.2.1 .events [[("event_no", Value.vStr "ABC"), ("add_date", Value.vInt 1)]]
    10 none none 100, h.2.2⟩

/-- Claim C2: one engine-loop iteration ends the window as `completed`
exactly when the batch runs without an injected failure and the fetch at
the window's current cursor returns zero rows — in particular no
processed-count target can trigger completion — and the checkpoint then
written is the completion update at the unchanged cursor. -/
theorem migrate_step_completes_iff_fetch_empty (now : Int) (tk : TableKey) (db : List Row)
    (wl : List String) (wEnd : Int) (key : WinKey) (outcome : BatchOutcome)
    (st : EngineState) :
    ((migrate_step now tk db wl wEnd key outcome st).2 = some .completedS
      ↔ outcome = .ok ∧ fetch_batch tk db wl wEnd st.last_t st.last_id BATCH_SIZE = [])
    ∧ ((migrate_step now tk db wl wEnd key outcome st).2 = some .completedS →
        (migrate_step now tk db wl wEnd key outcome st).1.store
          = update_checkpoint_window now tk key st.last_t st.last_id 0 .completed
              st.store) := by
  cases outcome with
  | pgErr => simp [migrate_step]
  | otherErr =>
    by_cases h5 : 5 ≤ st.consecutive_errors + 1 <;> simp [migrate_step, h5]
  | ok =>
    cases hf : fetch_batch tk db wl wEnd st.last_t st.last_id BATCH_SIZE with
    | nil => simp [migrate_step, hf]
    | cons r0 rest =>
      simp only [migrate_step, hf]
      cases hc : new_cursor (TABLES_CONFIG tk) (rest.getLastD r0) with
      | none =>
        by_cases h5 : 5 ≤ st.consecutive_errors + 1 <;> simp [h5]
      | some ti =>
        obtain ⟨t, i⟩ := ti
        simp

/-- Claim C2, witness: on an empty source table a normal iteration
completes the window, via the equivalence. -/
theorem migrate_step_completes_iff_fetch_empty_witness :
    (migrate_step 0 .events [] [] 10 (winKey full_window) .ok
        { last_t := some 0, last_id := none, processed_since_resume := 0,
          consecutive_errors := 0, store := fun _ => [full_window],
          mongo := ⟨[], []⟩ }).2 = some .completedS :=
  (migrate_step_completes_iff_fetch_empty 0 .events [] [] 10 (winKey full_window) .ok
      { last_t := some 0, last_id := none, processed_since_resume := 0,
        consecutive_errors := 0, store := fun _ => [full_window],
        mongo := ⟨[], []⟩ }).1.2 ⟨rfl, rfl⟩

/-- Claim C3, counterexample: with five consecutive non-source-driver
batch failures injected into the `events` window of a full sync, the
window does turn `pending`, but the re-raised exception aborts the whole
run: the command halts, only `events` was ever invoked, and the remaining
entities (here `hcc_events`) stay `pending` instead of completing. -/
theorem circuit_breaker_aborts_run_counterexample :
    ((command_full_sync 0 (fun _ => []) [] ⟨[], []⟩ 10
          (fun tk =>
            if tk = TableKey.events then
              [.otherErr, .otherErr, .otherErr, .otherErr, .otherErr]
            else [])).halt
        = some .raisedHalt)
    ∧ ((command_full_sync 0 (fun _ => []) [] ⟨[], []⟩ 10
          (fun tk =>
            if tk = TableKey.events then
              [.otherErr, .otherErr, .otherErr, .otherErr, .otherErr]
            else [])).store .events).map (fun w => w.status) = [.pending]
    ∧ ((command_full_sync 0 (fun _ => []) [] ⟨[], []⟩ 10
          (fun tk =>
            if tk = TableKey.events then
              [.otherErr, .otherErr, .otherErr, .otherErr, .otherErr]
            else [])).store .hcc_events).map (fun w => w.status) = [.pending]
    ∧ (command_full_sync 0 (fun _ => []) [] ⟨[], []⟩ 10
          (fun tk =>
            if tk = TableKey.events then
              [.otherErr, .otherErr, .otherErr, .otherErr, .otherErr]
            else [])).invoked.map Prod.fst = [.events] := by
  decide

/-- Claim C3, amended: after five consecutive batch failures other than
source-driver errors within one window (starting from a clean error
counter), the engine sets the window `pending` with the checkpoint still
at the last successful cursor and re-raises, ending the run — while a
source-driver (`psycopg2`) error only increments the counter and retries,
never by itself reaching the threshold check. -/
theorem circuit_breaker_amended (now : Int) (tk : TableKey) (db : List Row)
    (wl : List String) (wEnd : Int) (key : WinKey) (st : EngineState)
    (rest : List BatchOutcome) (fuel : Nat) (hce : st.consecutive_errors = 0)
    (hfuel : 5 ≤ fuel) :
    (run_window_loop now tk db wl wEnd key fuel
        (.otherErr :: .otherErr :: .otherErr :: .otherErr :: .otherErr :: rest) st
      = ⟨.raisedE,
          update_checkpoint_window now tk key st.last_t st.last_id 0 .pending st.store,
          st.mongo⟩)
    ∧ (∀ st2 : EngineState,
        migrate_step now tk db wl wEnd key .pgErr st2
          = ({ st2 with consecutive_errors := st2.consecutive_errors + 1 }, none)) := by
  constructor
  · obtain ⟨m, rfl⟩ : ∃ m, fuel = m + 5 := ⟨fuel - 5, by omega⟩
    obtain ⟨lt, li, ps, ce, store, mongo⟩ := st
    simp only at hce
    subst hce
    rfl
  · intro st2
    rfl

/-- Claim C3, witness for the amended behaviour at a concrete state. -/
theorem circuit_breaker_amended_witness :
    run_window_loop 0 .events [] [] 0 (winKey full_window) 5
        [.otherErr, .otherErr, .otherErr, .otherErr, .otherErr]
        { last_t := some 0, last_id := none, processed_since_resume := 0,
          consecutive_errors := 0, store := fun _ => [full_window], mongo := ⟨[], []⟩ }
      = ⟨.raisedE,
          update_checkpoint_window 0 .events (winKey full_window) (some 0) none 0 .pending
            (fun _ => [full_window]),
          ⟨[], []⟩⟩ :=
  (circuit_breaker_amended 0 .events [] [] 0 (winKey full_window)
      { last_t := some 0, last_id := none, processed_since_resume := 0,
        consecutive_errors := 0, store := fun _ => [full_window], mongo := ⟨[], []⟩ }
      [] 5 rfl (by omega)).1

theorem update_checkpoint_window_other {tk2 tk : TableKey} (h : tk2 ≠ tk) (now : Int)
    (key : WinKey) (t : Option Int) (i : Option Value) (d : Nat) (s : Status)
    (store : Store) : update_checkpoint_window now tk key t i d s store tk2 = store tk2 := by
  simp [update_checkpoint_window, h]

theorem migrate_step_store_other {tk2 tk : TableKey} (h : tk2 ≠ tk) (now : Int)
    (db : List Row) (wl : List String) (wEnd : Int) (key : WinKey) (o : BatchOutcome)
    (st : EngineState) :
    (migrate_step now tk db wl wEnd key o st).1.store tk2 = st.store tk2 := by
  cases o with
  | pgErr => rfl
  | otherErr =>
    by_cases h5 : 5 ≤ st.consecutive_errors + 1 <;>
      simp [migrate_step, h5, update_checkpoint_window, h]
  | ok =>
    cases hf : fetch_batch tk db wl wEnd st.last_t st.last_id BATCH_SIZE with
    | nil => simp [migrate_step, hf, update_checkpoint_window, h]
    | cons r0 rest =>
      simp only [migrate_step, hf]
      cases hc : new_cursor (TABLES_CONFIG tk) (rest.getLastD r0) with
      | none =>
        by_cases h5 : 5 ≤ st.consecutive_errors + 1 <;>
          simp [h5, update_checkpoint_window, h]
      | some ti =>
        obtain ⟨t, i⟩ := ti
        simp [update_checkpoint_window, h]

theorem run_window_loop_store_other {tk2 tk : TableKey} (h : tk2 ≠ tk) (now : Int)
    (db : List Row) (wl : List String) (wEnd : Int) (key : WinKey) :
    ∀ (fuel : Nat) (sched : List BatchOutcome) (st : EngineState),
      (run_window_loop now tk db wl wEnd key fuel sched st).store tk2 = st.store tk2 := by
  intro fuel
  induction fuel with
  | zero => intro sched st; rfl
  | succ n ih =>
    intro sched st
    cases hdef : migrate_step now tk db wl wEnd key (sched.headD .ok) st with
    | mk st2 stop =>
      have hs : st2.store tk2 = st.store tk2 := by
        have h0 := migrate_step_store_other h now db wl wEnd key (sched.headD .ok) st
        rw [hdef] at h0
        exact h0
      rw [run_window_loop, hdef]
      cases stop with
      | none => rw [ih sched.tail st2]; exact hs
      | some sk => cases sk <;> exact hs

theorem migrate_table_window_store_other {tk2 tk : TableKey} (h : tk2 ≠ tk) (now : Int)
    (db : List Row) (wl : List String) (w : Window) (fuel : Nat)
    (sched : List BatchOutcome) (store : Store) (mongo : MongoState) :
    (migrate_table_window now tk db wl w fuel sched store mongo).store tk2 = store tk2 := by
  rw [migrate_table_window, run_window_loop_store_other h]
  exact update_checkpoint_window_other h _ _ _ _ _ _ _

theorem orchRunWindow_eq (now : Int) (db : TableKey → List Row) (wl : List String)
    (fuel : Nat) (schedules : TableKey → List BatchOutcome) (tk : TableKey) (w : Window)
    (acc : OrchResult) :
    orchRunWindow now db wl fuel schedules tk w acc
      = { store :=
            (migrate_table_window now tk (db tk) wl w fuel (schedules tk) acc.store
              acc.mongo).store,
          mongo :=
            (migrate_table_window now tk (db tk) wl w fuel (schedules tk) acc.store
              acc.mongo).mongo,
          invoked := acc.invoked ++ [(tk, w)],
          halt :=
            match (migrate_table_window now tk (db tk) wl w fuel (schedules tk) acc.store
                acc.mongo).outcome with
            | .completedW => acc.halt
            | .raisedE => some .raisedHalt
            | .outOfFuel => some .fuelHalt } := by
  cases hdef : migrate_table_window now tk (db tk) wl w fuel (schedules tk) acc.store
      acc.mongo with
  | mk o s m => cases o <;> simp [orchRunWindow, hdef]

theorem orchRunWindow_store_other {tk2 tk : TableKey} (h : tk2 ≠ tk) (now : Int)
    (db : TableKey → List Row) (wl : List String) (fuel : Nat)
    (schedules : TableKey → List BatchOutcome) (w : Window) (acc : OrchResult) :
    (orchRunWindow now db wl fuel schedules tk w acc).store tk2 = acc.store tk2 := by
  rw [orchRunWindow_eq]
  exact migrate_table_window_store_other h _ _ _ _ _ _ _ _

theorem pyMaxBy_mem (key : α → Int) (b : α) (l : List α) :
    pyMaxBy key b l = b ∨ pyMaxBy key b l ∈ l := by
  induction l generalizing b with
  | nil => left; rfl
  | cons x xs ih =>
    simp only [pyMaxBy]
    rcases ih (if key b < key x then x else b) with h | h
    · by_cases hbx : key b < key x
      · right
        rw [h, if_pos hbx]
        exact List.mem_cons_self x xs
      · left
        rw [h, if_neg hbx]
    · right
      exact List.mem_cons_of_mem x h

theorem pyMaxBy_le (key : α → Int) (b : α) (l : List α) :
    key b ≤ key (pyMaxBy key b l) ∧ ∀ x ∈ l, key x ≤ key (pyMaxBy key b l) := by
  induction l generalizing b with
  | nil => exact ⟨le_refl _, by simp⟩
  | cons x xs ih =>
    simp only [pyMaxBy]
    have hb' : key b ≤ key (if key b < key x then x else b) := by
      split_ifs with hbx
      · exact le_of_lt hbx
      · exact le_refl _
    have hx' : key x ≤ key (if key b < key x then x else b) := by
      split_ifs with hbx
      · exact le_refl _
      · omega
    refine ⟨le_trans hb' (ih _).1, ?_⟩
    intro y hy
    rcases List.mem_cons.1 hy with rfl | hy
    · exact le_trans hx' (ih _).1
    · exact (ih _).2 y hy

theorem make_incremental_window_congr {store1 store2 : Store} {tk : TableKey} (now : Int)
    (h : store1 tk = store2 tk) :
    make_incremental_window store1 tk now = make_incremental_window store2 tk now := by
  rw [make_incremental_window, make_incremental_window, get_latest_checkpoint_for_table,
    get_latest_checkpoint_for_table, h]

theorem incremental_go_halt_some (now : Int) (db : TableKey → List Row) (wl : List String)
    (fuel : Nat) (schedules : TableKey → List BatchOutcome) (tks : List TableKey)
    (acc : OrchResult) (hh : acc.halt.isSome) :
    incremental_go now db wl fuel schedules tks acc = acc := by
  cases tks with
  | nil => rfl
  | cons tk tks =>
    rw [incremental_go]
    cases h : acc.halt with
    | none => rw [h] at hh; cases hh
    | some x => rfl

theorem incremental_go_spec (now : Int) (db : TableKey → List Row) (wl : List String)
    (fuel : Nat) (schedules : TableKey → List BatchOutcome) :
    ∀ (tks : List TableKey) (acc : OrchResult), tks.Nodup → acc.halt = none →
      (incremental_go now db wl fuel schedules tks acc).halt = none →
      (incremental_go now db wl fuel schedules tks acc).invoked
        = acc.invoked ++ tks.map (fun tk => (tk, make_incremental_window acc.store tk now)) := by
  intro tks
  induction tks with
  | nil =>
    intro acc _ _ _
    simp [incremental_go]
  | cons tk tks ih =>
    intro acc hnd hacc hhalt
    obtain ⟨astore, amongo, ainvoked, ahalt⟩ := acc
    simp only at hacc
    subst hacc
    simp only [incremental_go] at hhalt ⊢
    set w := make_incremental_window astore tk now with hw
    set acc2 := orchRunWindow now db wl fuel schedules tk w
      { store := fun tk2 => if tk2 = tk then astore tk ++ [w] else astore tk2,
        mongo := amongo, invoked := ainvoked, halt := none } with hacc2
    have hacc2halt : acc2.halt = none := by
      cases h2 : acc2.halt with
      | none => rfl
      | some x =>
        rw [incremental_go_halt_some now db wl fuel schedules tks acc2 (by rw [h2]; rfl),
          h2] at hhalt
        cases hhalt
    have hinv : acc2.invoked = ainvoked ++ [(tk, w)] := by
      rw [hacc2, orchRunWindow_eq]
    have hstore : ∀ tk2 ∈ tks, acc2.store tk2 = astore tk2 := by
      intro tk2 htk2
      have hne : tk2 ≠ tk := by
        rintro rfl
        exact (List.nodup_cons.1 hnd).1 htk2
      rw [hacc2, orchRunWindow_store_other hne]
      simp [hne]
    rw [ih acc2 (List.nodup_cons.1 hnd).2 hacc2halt hhalt, hinv]
    rw [List.map_congr_left
      (fun tk2 htk2 => by
        rw [show (tk2, make_incremental_window acc2.store tk2 now)
            = (tk2, make_incremental_window astore tk2 now) from by
          rw [make_incremental_window_congr now (hstore tk2 htk2)]])]
    simp

/-- Claim C4: an incremental run appends and processes, for every entity
independently, one window of mode `incremental` ending at the current
time whose start and initial checkpoint are exactly that entity's own
latest cursor; the cursor is read from the entity's completed window with
the greatest finish time, and defaults to the epoch with a null id when
the entity has no completed window. -/
theorem incremental_per_table_checkpoint (now : Int) (db : TableKey → List Row)
    (wl : List String) (mongo0 : MongoState) (fuel : Nat)
    (schedules : TableKey → List BatchOutcome) (store0 : Store)
    (hhalt : (command_incremental now db wl mongo0 fuel schedules store0).halt = none) :
    (command_incremental now db wl mongo0 fuel schedules store0).invoked
        = execution_order.map (fun tk => (tk, make_incremental_window store0 tk now))
    ∧ (∀ tk, make_incremental_window store0 tk now
        = { start := (get_latest_checkpoint_for_table store0 tk).1, endTime := now,
            status := .pending, mode := .incremental,
            last_checkpoint_time := some (get_latest_checkpoint_for_table store0 tk).1,
            last_checkpoint_id := (get_latest_checkpoint_for_table store0 tk).2,
            processed_count := 0, finish_exec_time := none })
    ∧ (∀ tk, (store0 tk).filter (fun w => decide (w.status = .completed)) = [] →
        get_latest_checkpoint_for_table store0 tk = (0, none))
    ∧ (∀ tk w0 ws,
        (store0 tk).filter (fun w => decide (w.status = .completed)) = w0 :: ws →
        ∃ lw, lw ∈ (store0 tk).filter (fun w => decide (w.status = .completed))
          ∧ get_latest_checkpoint_for_table store0 tk
              = (lw.last_checkpoint_time.getD 0, lw.last_checkpoint_id)
          ∧ ∀ w ∈ (store0 tk).filter (fun w => decide (w.status = .completed)),
              w.finish_exec_time.getD 0 ≤ lw.finish_exec_time.getD 0) := by
  refine ⟨?_, fun tk => rfl, ?_, ?_⟩
  · have h := incremental_go_spec now db wl fuel schedules execution_order
      { store := store0, mongo := mongo0, invoked := [], halt := none } (by decide) rfl
      hhalt
    simpa [command_incremental] using h
  · intro tk h
    rw [get_latest_checkpoint_for_table, h]
  · intro tk w0 ws h
    refine ⟨pyMaxBy (fun w => w.finish_exec_time.getD 0) w0 ws, ?_, ?_, ?_⟩
    · rw [h]
      rcases pyMaxBy_mem (fun w => w.finish_exec_time.getD 0) w0 ws with h2 | h2
      · rw [h2]
        exact List.mem_cons_self w0 ws
      · exact List.mem_cons_of_mem w0 h2
    · rw [get_latest_checkpoint_for_table, h]
    · intro w hw
      rw [h] at hw
      rcases List.mem_cons.1 hw with rfl | hw
      · exact (pyMaxBy_le (fun w => w.finish_exec_time.getD 0) w ws).1
      · exact (pyMaxBy_le (fun w => w.finish_exec_time.getD 0) w0 ws).2 w hw

/-- Claim C4, witness: with one completed window carrying cursor
`(5, "9")` for every entity and an empty source, the incremental run's
invoked windows all start exactly at that cursor. -/
theorem incremental_per_table_checkpoint_witness :
    (command_incremental 7 (fun _ => []) [] ⟨[], []⟩ 3 (fun _ => [])
        (fun _ =>
          [{ start := 0, endTime := 6, status := .completed, mode := .full,
              last_checkpoint_time := some 5, last_checkpoint_id := some "9",
              processed_count := 4, finish_exec_time := some 6 }])).invoked
      = execution_order.map
        (fun tk =>
          (tk,
            make_incremental_window
              (fun _ =>
                [{ start := 0, endTime := 6, status := .completed, mode := .full,
                    last_checkpoint_time := some 5, last_checkpoint_id := some "9",
                    processed_count := 4, finish_exec_time := some 6 }])
              tk 7)) :=
  (incremental_per_table_checkpoint 7 (fun _ => []) [] ⟨[], []⟩ 3 (fun _ => [])
      (fun _ =>
        [{ start := 0, endTime := 6, status := .completed, mode := .full,
            last_checkpoint_time := some 5, last_checkpoint_id := some "9",
            processed_count := 4, finish_exec_time := some 6 }])
      (by decide)).1

theorem applyWindowUpdate_winKey (now : Int) (t : Option Int) (i : Option Value) (d : Nat)
    (s : Status) (w : Window) : winKey (applyWindowUpdate now t i d s w) = winKey w := by
  rw [applyWindowUpdate]
  split <;> rfl

theorem preservesW_refl (key : WinKey) (ws : List Window) : preservesW key ws ws :=
  ⟨rfl, fun _ _ h _ => h⟩

theorem preservesW_trans {key : WinKey} {a b c : List Window} (h1 : preservesW key a b)
    (h2 : preservesW key b c) : preservesW key a c :=
  ⟨h2.1.trans h1.1, fun j w hj hk => h2.2 j w (h1.2 j w hj hk) hk⟩

theorem preservesW_update (now : Int) (key : WinKey) (t : Option Int) (i : Option Value)
    (d : Nat) (s : Status) (ws : List Window) :
    preservesW key ws (update_window_list now key t i d s ws) := by
  constructor
  · induction ws with
    | nil => rfl
    | cons w rest ih =>
      by_cases hk : winKey w = key
      · simp [update_window_list, hk, applyWindowUpdate_winKey]
      · simp only [update_window_list, if_neg hk, List.map_cons]
        rw [ih]
  · intro j
    induction ws generalizing j with
    | nil => intro w h _; exact h
    | cons w rest ih =>
      intro w2 hget hkey
      by_cases hk : winKey w = key
      · cases j with
        | zero =>
          simp only [List.get?] at hget
          cases hget
          exact absurd hk hkey
        | succ j =>
          simp only [update_window_list, if_pos hk, List.get?]
          exact hget
      · cases j with
        | zero =>
          simp only [update_window_list, if_neg hk, List.get?]
          exact hget
        | succ j =>
          simp only [update_window_list, if_neg hk, List.get?] at hget ⊢
          exact ih j w2 hget hkey

theorem migrate_step_store_self (now : Int) (tk : TableKey) (db : List Row)
    (wl : List String) (wEnd : Int) (key : WinKey) (o : BatchOutcome) (st : EngineState) :
    (migrate_step now tk db wl wEnd key o st).1.store tk = st.store tk ∨
      ∃ t i d s, (migrate_step now tk db wl wEnd key o st).1.store tk
        = update_window_list now key t i d s (st.store tk) := by
  cases o with
  | pgErr => left; rfl
  | otherErr =>
    by_cases h5 : 5 ≤ st.consecutive_errors + 1
    · right
      exact ⟨st.last_t, st.last_id, 0, .pending,
        by simp [migrate_step, h5, update_checkpoint_window]⟩
    · left
      simp [migrate_step, h5]
  | ok =>
    cases hf : fetch_batch tk db wl wEnd st.last_t st.last_id BATCH_SIZE with
    | nil =>
      right
      exact ⟨st.last_t, st.last_id, 0, .completed,
        by simp [migrate_step, hf, update_checkpoint_window]⟩
    | cons r0 rest =>
      have hred :
          migrate_step now tk db wl wEnd key .ok st
            = (match new_cursor (TABLES_CONFIG tk) (rest.getLastD r0) with
                | none =>
                  let n := st.consecutive_errors + 1
                  if 5 ≤ n then
                    ({ st with
                        mongo := mongoSetColl st.mongo tk
                          (bulk_write (mongoColl st.mongo tk) (upsert_batch tk (r0 :: rest))),
                        consecutive_errors := n,
                        store := update_checkpoint_window now tk key st.last_t st.last_id 0
                          .pending st.store },
                      some .raisedS)
                  else
                    ({ st with
                        mongo := mongoSetColl st.mongo tk
                          (bulk_write (mongoColl st.mongo tk) (upsert_batch tk (r0 :: rest))),
                        consecutive_errors := n },
                      none)
                | some (t, i) =>
                  ({ last_t := some t, last_id := some i,
                      processed_since_resume := st.processed_since_resume + (r0 :: rest).length,
                      consecutive_errors := 0,
                      store := update_checkpoint_window now tk key (some t) (some i)
                        (r0 :: rest).length .in_progress st.store,
                      mongo := mongoSetColl st.mongo tk
                        (bulk_write (mongoColl st.mongo tk) (upsert_batch tk (r0 :: rest))) },
                    none)) := by
        simp only [migrate_step, hf]
      rw [hred]
      cases hc : new_cursor (TABLES_CONFIG tk) (rest.getLastD r0) with
      | none =>
        by_cases h5 : 5 ≤ st.consecutive_errors + 1
        · right
          exact ⟨st.last_t, st.last_id, 0, .pending,
            by simp [h5, update_checkpoint_window]⟩
        · left
          simp [h5]
      | some ti =>
        obtain ⟨t, i⟩ := ti
        right
        exact ⟨some t, some i, (r0 :: rest).length, .in_progress,
          by simp [update_checkpoint_window]⟩

theorem migrate_step_preserves (now : Int) (tk : TableKey) (db : List Row)
    (wl : List String) (wEnd : Int) (key : WinKey) (o : BatchOutcome) (st : EngineState) :
    preservesW key (st.store tk) ((migrate_step now tk db wl wEnd key o st).1.store tk) := by
  rcases migrate_step_store_self now tk db wl wEnd key o st with h | ⟨t, i, d, s, h⟩
  · rw [h]
    exact preservesW_refl _ _
  · rw [h]
    exact preservesW_update _ _ _ _ _ _ _

theorem run_window_loop_preserves (now : Int) (tk : TableKey) (db : List Row)
    (wl : List String) (wEnd : Int) (key : WinKey) :
    ∀ (fuel : Nat) (sched : List BatchOutcome) (st : EngineState),
      preservesW key (st.store tk) ((run_window_loop now tk db wl wEnd key fuel sched st).store tk) := by
  intro fuel
  induction fuel with
  | zero => intro sched st; exact preservesW_refl _ _
  | succ n ih =>
    intro sched st
    have hstep := migrate_step_preserves now tk db wl wEnd key (sched.headD .ok) st
    cases hdef : migrate_step now tk db wl wEnd key (sched.headD .ok) st with
    | mk st2 stop =>
      rw [hdef] at hstep
      rw [run_window_loop, hdef]
      cases stop with
      | none => exact preservesW_trans hstep (ih sched.tail st2)
      | some sk => cases sk <;> exact hstep

theorem migrate_table_window_preserves (now : Int) (tk : TableKey) (db : List Row)
    (wl : List String) (w : Window) (fuel : Nat) (sched : List BatchOutcome)
    (store : Store) (mongo : MongoState) :
    preservesW (winKey w) (store tk)
      ((migrate_table_window now tk db wl w fuel sched store mongo).store tk) := by
  rw [migrate_table_window]
  refine preservesW_trans ?_ (run_window_loop_preserves now tk db wl w.endTime (winKey w)
    fuel sched _)
  simp only [update_checkpoint_window, if_pos rfl]
  exact preservesW_update _ _ _ _ _ _ _

theorem orchRunWindow_preserves (now : Int) (db : TableKey → List Row) (wl : List String)
    (fuel : Nat) (schedules : TableKey → List BatchOutcome) (tk : TableKey) (w : Window)
    (acc : OrchResult) :
    preservesW (winKey w) (acc.store tk)
      ((orchRunWindow now db wl fuel schedules tk w acc).store tk) := by
  rw [orchRunWindow_eq]
  exact migrate_table_window_preserves now tk (db tk) wl w fuel (schedules tk) acc.store
    acc.mongo

theorem nodup_map_get?_ne {l : List α} {f : α → β} (h : (l.map f).Nodup) {i j : Nat}
    {a b : α} (hi : l.get? i = some a) (hj : l.get? j = some b) (hij : i ≠ j) :
    f a ≠ f b := by
  intro heq
  have h1 : (l.map f).get? i = some (f a) := by rw [List.get?_map, hi]; rfl
  have h2 : (l.map f).get? j = some (f b) := by rw [List.get?_map, hj]; rfl
  have hlen : i < (l.map f).length := by
    rcases List.get?_eq_some.1 h1 with ⟨hh, _⟩
    exact hh
  apply hij
  apply List.get?_inj hlen h
  rw [h1, h2, heq]

theorem drop_eq_cons_of_get? {l : List α} {i : Nat} {a : α} (h : l.get? i = some a) :
    l.drop i = a :: l.drop (i + 1) := by
  induction l generalizing i with
  | nil => simp [List.get?] at h
  | cons x xs ih =>
    cases i with
    | zero =>
      simp only [List.get?] at h
      cases h
      rfl
    | succ i =>
      simp only [List.get?] at h
      simpa [List.drop] using ih h

theorem resume_table_go_halt_some (now : Int) (tk : TableKey) (db : TableKey → List Row)
    (wl : List String) (fuel : Nat) (schedules : TableKey → List BatchOutcome) :
    ∀ (n i : Nat) (acc : OrchResult), acc.halt.isSome →
      resume_table_go now tk db wl fuel schedules i n acc = acc := by
  intro n
  induction n with
  | zero => intro i acc _; rfl
  | succ n ih =>
    intro i acc h
    cases hh : acc.halt with
    | none => rw [hh] at h; cases h
    | some x => simp [resume_table_go, hh]

theorem resume_table_go_halt_none (now : Int) (tk : TableKey) (db : TableKey → List Row)
    (wl : List String) (fuel : Nat) (schedules : TableKey → List BatchOutcome)
    {n i : Nat} {acc : OrchResult}
    (h : (resume_table_go now tk db wl fuel schedules i n acc).halt = none) :
    acc.halt = none := by
  cases hh : acc.halt with
  | none => rfl
  | some x =>
    rw [resume_table_go_halt_some now tk db wl fuel schedules n i acc (by rw [hh]; rfl),
      hh] at h
    cases h

theorem resume_table_go_spec (now : Int) (tk : TableKey) (db : TableKey → List Row)
    (wl : List String) (fuel : Nat) (schedules : TableKey → List BatchOutcome)
    (ws0 : List Window) (hkeys : (ws0.map winKey).Nodup) :
    ∀ (n i : Nat) (acc : OrchResult), acc.halt = none →
      (acc.store tk).map winKey = ws0.map winKey →
      (∀ j, i ≤ j → (acc.store tk).get? j = ws0.get? j) →
      ws0.length = i + n →
      (resume_table_go now tk db wl fuel schedules i n acc).halt = none →
      (resume_table_go now tk db wl fuel schedules i n acc).invoked
        = acc.invoked ++ ((ws0.drop i).filter
            (fun w => decide (w.status = .pending ∨ w.status = .in_progress))).map
            (fun w => (tk, w)) := by
  intro n
  induction n with
  | zero =>
    intro i acc hacc hkeq hidx hlen hhalt
    have hd : ws0.drop i = [] := List.drop_eq_nil_of_le (by omega)
    simp [resume_table_go, hd]
  | succ n ih =>
    intro i acc hacc hkeq hidx hlen hhalt
    cases hw0 : ws0.get? i with
    | none =>
      rw [List.get?_eq_none] at hw0
      omega
    | some w =>
      have hget : (acc.store tk).get? i = some w := by rw [hidx i (le_refl i), hw0]
      have hdrop : ws0.drop i = w :: ws0.drop (i + 1) := drop_eq_cons_of_get? hw0
      have hred : resume_table_go now tk db wl fuel schedules i (n + 1) acc
          = (if w.status = .pending ∨ w.status = .in_progress then
              resume_table_go now tk db wl fuel schedules (i + 1) n
                (orchRunWindow now db wl fuel schedules tk w acc)
            else resume_table_go now tk db wl fuel schedules (i + 1) n acc) := by
        simp only [resume_table_go, hacc, hget]
      rw [hred] at hhalt ⊢
      by_cases hsel : w.status = .pending ∨ w.status = .in_progress
      · rw [if_pos hsel] at hhalt ⊢
        set acc2 := orchRunWindow now db wl fuel schedules tk w acc with hacc2
        have hacc2halt : acc2.halt = none :=
          resume_table_go_halt_none now tk db wl fuel schedules hhalt
        have hpres : preservesW (winKey w) (acc.store tk) (acc2.store tk) :=
          orchRunWindow_preserves now db wl fuel schedules tk w acc
        have hkeq2 : (acc2.store tk).map winKey = ws0.map winKey := hpres.1.trans hkeq
        have hidx2 : ∀ j, i + 1 ≤ j → (acc2.store tk).get? j = ws0.get? j := by
          intro j hj
          cases hj0 : ws0.get? j with
          | none =>
            have hlen2 : (acc2.store tk).length = ws0.length := by
              have hc := congrArg List.length hkeq2
              simpa using hc
            rw [List.get?_eq_none] at hj0 ⊢
            omega
          | some w2 =>
            have hprev : (acc.store tk).get? j = some w2 := by rw [hidx j (by omega), hj0]
            have hne : winKey w2 ≠ winKey w :=
              nodup_map_get?_ne hkeys hj0 hw0 (by omega)
            exact hpres.2 j w2 hprev hne
        have hinv2 : acc2.invoked = acc.invoked ++ [(tk, w)] := by
          rw [hacc2, orchRunWindow_eq]
        rw [ih (i + 1) acc2 hacc2halt hkeq2 hidx2 (by omega) hhalt, hinv2, hdrop]
        simp [hsel, List.filter_cons]
      · rw [if_neg hsel] at hhalt ⊢
        rw [ih (i + 1) acc hacc hkeq (fun j hj => hidx j (by omega)) (by omega) hhalt,
          hdrop]
        simp [hsel, List.filter_cons]

theorem resume_go_halt_some (now : Int) (db : TableKey → List Row) (wl : List String)
    (fuel : Nat) (schedules : TableKey → List BatchOutcome) (tks : List TableKey)
    (acc : OrchResult) (h : acc.halt.isSome) :
    resume_go now db wl fuel schedules tks acc = acc := by
  cases tks with
  | nil => rfl
  | cons tk tks =>
    cases hh : acc.halt with
    | none => rw [hh] at h; cases h
    | some x => simp [resume_go, hh]

theorem resume_table_go_store_other {tk2 tk : TableKey} (h : tk2 ≠ tk) (now : Int)
    (db : TableKey → List Row) (wl : List String) (fuel : Nat)
    (schedules : TableKey → List BatchOutcome) :
    ∀ (n i : Nat) (acc : OrchResult),
      (resume_table_go now tk db wl fuel schedules i n acc).store tk2 = acc.store tk2 := by
  intro n
  induction n with
  | zero => intro i acc; rfl
  | succ n ih =>
    intro i acc
    cases hh : acc.halt with
    | some x => simp [resume_table_go, hh]
    | none =>
      cases hget : (acc.store tk).get? i with
      | none => simp only [resume_table_go, hh, hget]
      | some w =>
        by_cases hsel : w.status = .pending ∨ w.status = .in_progress
        · rw [show resume_table_go now tk db wl fuel schedules i (n + 1) acc
              = resume_table_go now tk db wl fuel schedules (i + 1) n
                  (orchRunWindow now db wl fuel schedules tk w acc) from by
            simp only [resume_table_go, hh, hget, if_pos hsel]]
          rw [ih (i + 1) _, orchRunWindow_store_other h]
        · rw [show resume_table_go now tk db wl fuel schedules i (n + 1) acc
              = resume_table_go now tk db wl fuel schedules (i + 1) n acc from by
            simp only [resume_table_go, hh, hget, if_neg hsel]]
          exact ih (i + 1) acc

theorem resume_go_spec (now : Int) (db : TableKey → List Row) (wl : List String)
    (fuel : Nat) (schedules : TableKey → List BatchOutcome) :
    ∀ (tks : List TableKey) (acc : OrchResult), tks.Nodup →
      (∀ tk ∈ tks, ((acc.store tk).map winKey).Nodup) →
      (resume_go now db wl fuel schedules tks acc).halt = none →
      (resume_go now db wl fuel schedules tks acc).invoked
        = acc.invoked ++ (tks.map (fun tk =>
            ((acc.store tk).filter
              (fun w => decide (w.status = .pending ∨ w.status = .in_progress))).map
              (fun w => (tk, w)))).flatten := by
  intro tks
  induction tks with
  | nil =>
    intro acc _ _ _
    simp [resume_go]
  | cons tk tks ih =>
    intro acc hnd hkeys hhalt
    have hacc : acc.halt = none := by
      cases hh : acc.halt with
      | none => rfl
      | some x =>
        rw [resume_go_halt_some now db wl fuel schedules (tk :: tks) acc
          (by rw [hh]; rfl), hh] at hhalt
        cases hhalt
    have hred : resume_go now db wl fuel schedules (tk :: tks) acc
        = resume_go now db wl fuel schedules tks
            (resume_table_go now tk db wl fuel schedules 0 (acc.store tk).length acc) := by
      simp only [resume_go, hacc]
    rw [hred] at hhalt ⊢
    set acc1 := resume_table_go now tk db wl fuel schedules 0 (acc.store tk).length acc
      with hacc1
    have hacc1halt : acc1.halt = none := by
      cases hh : acc1.halt with
      | none => rfl
      | some x =>
        rw [resume_go_halt_some now db wl fuel schedules tks acc1 (by rw [hh]; rfl), hh]
          at hhalt
        cases hhalt
    have hinv1 : acc1.invoked = acc.invoked ++ ((acc.store tk).filter
        (fun w => decide (w.status = .pending ∨ w.status = .in_progress))).map
        (fun w => (tk, w)) := by
      have hspec := resume_table_go_spec now tk db wl fuel schedules (acc.store tk)
        (hkeys tk (List.mem_cons_self tk tks)) (acc.store tk).length 0 acc hacc rfl
        (fun j _ => rfl) (by omega) (by rw [← hacc1]; exact hacc1halt)
      rw [hacc1, hspec]
      rfl
    have hstore1 : ∀ tk2 ∈ tks, acc1.store tk2 = acc.store tk2 := by
      intro tk2 htk2
      have hne : tk2 ≠ tk := by
        rintro rfl
        exact (List.nodup_cons.1 hnd).1 htk2
      rw [hacc1]
      exact resume_table_go_store_other hne now db wl fuel schedules _ _ acc
    rw [ih acc1 (List.nodup_cons.1 hnd).2
      (fun tk2 htk2 => by rw [hstore1 tk2 htk2]; exact hkeys tk2 (List.mem_cons_of_mem tk htk2))
      hhalt]
    rw [List.map_congr_left (fun tk2 htk2 => by rw [hstore1 tk2 htk2]), hinv1]
    simp

theorem orchRunWindow_invoked (now : Int) (db : TableKey → List Row) (wl : List String)
    (fuel : Nat) (schedules : TableKey → List BatchOutcome) (tk : TableKey) (w : Window)
    (acc : OrchResult) :
    (orchRunWindow now db wl fuel schedules tk w acc).invoked
      = acc.invoked ++ [(tk, w)] := by
  rw [orchRunWindow_eq]

theorem resume_table_go_invoked_sound (now : Int) (tk : TableKey)
    (db : TableKey → List Row) (wl : List String) (fuel : Nat)
    (schedules : TableKey → List BatchOutcome) :
    ∀ (n i : Nat) (acc : OrchResult) (p : TableKey × Window),
      p ∈ (resume_table_go now tk db wl fuel schedules i n acc).invoked →
      p ∈ acc.invoked ∨ p.2.status = .pending ∨ p.2.status = .in_progress := by
  intro n
  induction n with
  | zero => intro i acc p hp; left; exact hp
  | succ n ih =>
    intro i acc p hp
    cases hh : acc.halt with
    | some x =>
      rw [resume_table_go_halt_some now tk db wl fuel schedules (n + 1) i acc
        (by rw [hh]; rfl)] at hp
      left
      exact hp
    | none =>
      cases hget : (acc.store tk).get? i with
      | none =>
        simp only [resume_table_go, hh, hget] at hp
        left
        exact hp
      | some w =>
        by_cases hsel : w.status = .pending ∨ w.status = .in_progress
        · simp only [resume_table_go, hh, hget, if_pos hsel] at hp
          rcases ih (i + 1) _ p hp with hp2 | hp2
          · rw [orchRunWindow_invoked] at hp2
            rcases List.mem_append.1 hp2 with h3 | h3
            · left
              exact h3
            · rw [List.mem_singleton] at h3
              subst h3
              right
              exact hsel
          · right
            exact hp2
        · simp only [resume_table_go, hh, hget, if_neg hsel] at hp
          exact ih (i + 1) acc p hp

theorem resume_go_invoked_sound (now : Int) (db : TableKey → List Row) (wl : List String)
    (fuel : Nat) (schedules : TableKey → List BatchOutcome) :
    ∀ (tks : List TableKey) (acc : OrchResult) (p : TableKey × Window),
      p ∈ (resume_go now db wl fuel schedules tks acc).invoked →
      p ∈ acc.invoked ∨ p.2.status = .pending ∨ p.2.status = .in_progress := by
  intro tks
  induction tks with
  | nil => intro acc p hp; left; exact hp
  | cons tk tks ih =>
    intro acc p hp
    cases hh : acc.halt with
    | some x =>
      simp only [resume_go, hh] at hp
      left
      exact hp
    | none =>
      simp only [resume_go, hh] at hp
      rcases ih _ p hp with hp2 | hp2
      · exact resume_table_go_invoked_sound now tk db wl fuel schedules _ _ acc p hp2
      · right
        exact hp2

theorem full_sync_go_invoked_full (now : Int) (db : TableKey → List Row)
    (wl : List String) (fuel : Nat) (schedules : TableKey → List BatchOutcome) :
    ∀ (tks : List TableKey) (acc : OrchResult), tks.Nodup →
      (∀ tk ∈ tks, acc.store tk = [full_window]) →
      (∀ p ∈ acc.invoked, p.2 = full_window) →
      ∀ p ∈ (full_sync_go now db wl fuel schedules tks acc).invoked, p.2 = full_window := by
  intro tks
  induction tks with
  | nil => intro acc _ _ hbase p hp; exact hbase p hp
  | cons tk tks ih =>
    intro acc hnd hstore hbase p hp
    cases hh : acc.halt with
    | some x =>
      simp only [full_sync_go, hh] at hp
      exact hbase p hp
    | none =>
      have hhead : (acc.store tk).head? = some full_window := by
        rw [hstore tk (List.mem_cons_self tk tks)]
        rfl
      simp only [full_sync_go, hh, hhead] at hp
      refine ih _ (List.nodup_cons.1 hnd).2 ?_ ?_ p hp
      · intro tk2 htk2
        have hne : tk2 ≠ tk := by
          rintro rfl
          exact (List.nodup_cons.1 hnd).1 htk2
        rw [orchRunWindow_store_other hne]
        exact hstore tk2 (List.mem_cons_of_mem tk htk2)
      · intro q hq
        rw [orchRunWindow_invoked] at hq
        rcases List.mem_append.1 hq with h3 | h3
        · exact hbase q h3
        · rw [List.mem_singleton] at h3
          subst h3
          rfl

theorem incremental_go_invoked_pending (now : Int) (db : TableKey → List Row)
    (wl : List String) (fuel : Nat) (schedules : TableKey → List BatchOutcome) :
    ∀ (tks : List TableKey) (acc : OrchResult),
      (∀ p ∈ acc.invoked, p.2.status = .pending) →
      ∀ p ∈ (incremental_go now db wl fuel schedules tks acc).invoked,
        p.2.status = .pending := by
  intro tks
  induction tks with
  | nil => intro acc hbase p hp; exact hbase p hp
  | cons tk tks ih =>
    intro acc hbase p hp
    cases hh : acc.halt with
    | some x =>
      simp only [incremental_go, hh] at hp
      exact hbase p hp
    | none =>
      simp only [incremental_go, hh] at hp
      refine ih _ ?_ p hp
      intro q hq
      rw [orchRunWindow_invoked] at hq
      rcases List.mem_append.1 hq with h3 | h3
      · exact hbase q h3
      · rw [List.mem_singleton] at h3
        subst h3
        rfl

/-- Claim C5: a resume run (with distinct window keys per entity, as
every run the source produces has) invokes the Window Engine on exactly
the windows of the loaded checkpoint store whose status is `pending` or
`in_progress`, each with its own stored window (hence its own stored
mode), in entity order; and no normal run — resume, full sync or
incremental — ever invokes the engine on a window whose status is
`completed`. -/
theorem resume_processes_pending_windows (now : Int) (db : TableKey → List Row)
    (wl : List String) (mongo0 : MongoState) (fuel : Nat)
    (schedules : TableKey → List BatchOutcome) (store0 : Store)
    (hkeys : ∀ tk, ((store0 tk).map winKey).Nodup) :
    ((command_resume now db wl mongo0 fuel schedules store0).halt = none →
      (command_resume now db wl mongo0 fuel schedules store0).invoked
        = (execution_order.map (fun tk =>
            ((store0 tk).filter
              (fun w => decide (w.status = .pending ∨ w.status = .in_progress))).map
              (fun w => (tk, w)))).flatten)
    ∧ (∀ p ∈ (command_resume now db wl mongo0 fuel schedules store0).invoked,
        p.2.status = .pending ∨ p.2.status = .in_progress)
    ∧ (∀ p ∈ (command_full_sync now db wl mongo0 fuel schedules).invoked,
        p.2.status = .pending)
    ∧ (∀ p ∈ (command_incremental now db wl mongo0 fuel schedules store0).invoked,
        p.2.status = .pending) := by
  refine ⟨?_, ?_, ?_, ?_⟩
  · intro hhalt
    have h := resume_go_spec now db wl fuel schedules execution_order
      { store := store0, mongo := mongo0, invoked := [], halt := none } (by decide)
      (fun tk _ => hkeys tk) hhalt
    simpa [command_resume] using h
  · intro p hp
    rcases resume_go_invoked_sound now db wl fuel schedules execution_order
      { store := store0, mongo := mongo0, invoked := [], halt := none } p hp with h | h
    · exact absurd h (List.not_mem_nil p)
    · exact h
  · intro p hp
    have h := full_sync_go_invoked_full now db wl fuel schedules execution_order
      { store := fun _ => [full_window], mongo := mongo0, invoked := [], halt := none }
      (by decide) (fun tk _ => rfl) (fun q hq => absurd hq (List.not_mem_nil q)) p hp
    rw [h]
    rfl
  · exact incremental_go_invoked_pending now db wl fuel schedules execution_order
      { store := store0, mongo := mongo0, invoked := [], halt := none }
      (fun q hq => absurd hq (List.not_mem_nil q))

/-- Claim C5, witness: a store whose `events` entity holds one completed
and one pending window; the resume run invokes the engine exactly on the
pending one. -/
theorem resume_processes_pending_windows_witness :
    (command_resume 0 (fun _ => []) [] ⟨[], []⟩ 3 (fun _ => [])
        (fun tk =>
          if tk = TableKey.events then
            [{ start := 0, endTime := 10, status := .completed, mode := .full,
                last_checkpoint_time := some 5, last_checkpoint_id := some "9",
                processed_count := 1, finish_exec_time := some 6 },
              { start := 5, endTime := 20, status := .pending, mode := .incremental,
                last_checkpoint_time := some 5, last_checkpoint_id := some "9",
                processed_count := 0, finish_exec_time := none }]
          else [])).invoked
      = (execution_order.map (fun tk =>
          (((fun tk =>
                if tk = TableKey.events then
                  [{ start := 0, endTime := 10, status := .completed, mode := .full,
                      last_checkpoint_time := some 5, last_checkpoint_id := some "9",
                      processed_count := 1, finish_exec_time := some 6 },
                    { start := 5, endTime := 20, status := .pending, mode := .incremental,
                      last_checkpoint_time := some 5, last_checkpoint_id := some "9",
                      processed_count := 0, finish_exec_time := none }]
                else [] : Store) tk).filter
            (fun w => decide (w.status = .pending ∨ w.status = .in_progress))).map
            (fun w => (tk, w)))).flatten :=
  (resume_processes_pending_windows 0 (fun _ => []) [] ⟨[], []⟩ 3 (fun _ => [])
      (fun tk =>
        if tk = TableKey.events then
          [{ start := 0, endTime := 10, status := .completed, mode := .full,
              last_checkpoint_time := some 5, last_checkpoint_id := some "9",
              processed_count := 1, finish_exec_time := some 6 },
            { start := 5, endTime := 20, status := .pending, mode := .incremental,
              last_checkpoint_time := some 5, last_checkpoint_id := some "9",
              processed_count := 0, finish_exec_time := none }]
        else [])
      (by intro tk; cases tk <;> decide)).1 (by decide)

theorem lookupField_eq_none_of_not_mem {L : List (String × α)} {k : String}
    (h : k ∉ keysOf L) : lookupField L k = none := by
  induction L with
  | nil => rfl
  | cons kv rest ih =>
    obtain ⟨k1, v1⟩ := kv
    have h1 : ¬k1 = k := by
      intro he
      subst he
      exact h (List.mem_cons_self k1 (keysOf rest))
    have h2 : k ∉ keysOf rest := fun he => h (List.mem_cons_of_mem k1 he)
    simp only [lookupField, if_neg h1]
    exact ih h2

theorem lookupField_of_mem_nodup {L : List (String × α)} (h : (keysOf L).Nodup)
    {k : String} {v : α} (hm : (k, v) ∈ L) : lookupField L k = some v := by
  induction L with
  | nil => cases hm
  | cons kv rest ih =>
    obtain ⟨k1, v1⟩ := kv
    have h' : (k1 :: keysOf rest).Nodup := h
    rcases List.mem_cons.1 hm with heq | hm2
    · cases heq
      simp [lookupField]
    · by_cases hk : k1 = k
      · subst hk
        exfalso
        exact (List.nodup_cons.1 h').1
          (by simpa [keysOf] using List.mem_map_of_mem Prod.fst hm2)
      · simp only [lookupField, if_neg hk]
        exact ih (List.nodup_cons.1 h').2 hm2

theorem lookupField_applySet {L : SDoc} (h : (keysOf L).Nodup) (d : Doc) (k : String) :
    lookupField (applySet d L) k
      = match lookupField L k with
        | some v => some (.scalar v)
        | none => lookupField d k := by
  induction L generalizing d with
  | nil => simp [applySet, lookupField]
  | cons kv rest ih =>
    obtain ⟨k1, v1⟩ := kv
    have h' : (k1 :: keysOf rest).Nodup := h
    have happ : applySet d ((k1, v1) :: rest) = applySet (setField d k1 (.scalar v1)) rest :=
      rfl
    rw [happ, ih (List.nodup_cons.1 h').2]
    by_cases hk : k1 = k
    · subst hk
      have hnone : lookupField rest k1 = none :=
        lookupField_eq_none_of_not_mem (List.nodup_cons.1 h').1
      rw [hnone]
      simp [lookupField, lookupField_setField_same]
    · cases hlk : lookupField rest k with
      | none => simp [lookupField, hk, hlk, lookupField_setField_ne _ _ (Ne.symm hk)]
      | some v => simp [lookupField, hk, hlk]

theorem applySet_eq_self {d : Doc} {L : SDoc}
    (h : ∀ kv ∈ L, lookupField d kv.1 = some (.scalar kv.2)) : applySet d L = d := by
  induction L generalizing d with
  | nil => rfl
  | cons kv rest ih =>
    obtain ⟨k1, v1⟩ := kv
    have h1 := h (k1, v1) (List.mem_cons_self _ _)
    have happ : applySet d ((k1, v1) :: rest) = applySet (setField d k1 (.scalar v1)) rest :=
      rfl
    rw [happ, lookupField_setField_self h1]
    exact ih fun kv hm => h kv (List.mem_cons_of_mem _ hm)

theorem applySet_applySet {d : Doc} {L : SDoc} (h : (keysOf L).Nodup) :
    applySet (applySet d L) L = applySet d L := by
  apply applySet_eq_self
  intro kv hm
  obtain ⟨k, v⟩ := kv
  rw [lookupField_applySet h, lookupField_of_mem_nodup h hm]

theorem lookupField_docOfFilter (flt : List (String × Value)) (k : String) :
    lookupField (docOfFilter flt) k = (lookupField flt k).map VField.scalar := by
  induction flt with
  | nil => rfl
  | cons kv rest ih =>
    obtain ⟨k1, v1⟩ := kv
    have hstep : docOfFilter ((k1, v1) :: rest) = (k1, VField.scalar v1) :: docOfFilter rest :=
      rfl
    rw [hstep]
    by_cases hk : k1 = k <;> simp [lookupField, hk, ih]

theorem docMatches_iff {d : Doc} {flt : List (String × Value)} :
    docMatches d flt = true ↔
      ∀ kv ∈ flt, (lookupField d kv.1).getD (.scalar .vNull) = .scalar kv.2 := by
  simp [docMatches]

theorem docMatches_docOfFilter {flt : List (String × Value)} (h : (keysOf flt).Nodup) :
    docMatches (docOfFilter flt) flt = true := by
  rw [docMatches_iff]
  intro kv hm
  obtain ⟨k, v⟩ := kv
  rw [lookupField_docOfFilter, lookupField_of_mem_nodup h hm]
  rfl

theorem applyAddToSet_of_none {d : Doc} {f : String} (v : Value)
    (h : lookupField d f = none) : applyAddToSet d f v = setField d f (.arr [v]) := by
  simp [applyAddToSet, h]

theorem applyAddToSet_of_scalar {d : Doc} {f : String} {s : Value} (v : Value)
    (h : lookupField d f = some (.scalar s)) : applyAddToSet d f v = d := by
  simp [applyAddToSet, h]

theorem applyAddToSet_of_arr_mem {d : Doc} {f : String} {xs : List Value} {v : Value}
    (h : lookupField d f = some (.arr xs)) (hv : v ∈ xs) : applyAddToSet d f v = d := by
  simp [applyAddToSet, h, hv]

theorem applyAddToSet_of_arr_not_mem {d : Doc} {f : String} {xs : List Value} {v : Value}
    (h : lookupField d f = some (.arr xs)) (hv : v ∉ xs) :
    applyAddToSet d f v = setField d f (.arr (xs ++ [v])) := by
  simp [applyAddToSet, h, hv]

theorem applyUpdate_matches {u : UpdateOne} (hu : goodReq u) {d : Doc}
    (h : docMatches d u.filter = true) :
    docMatches (applyUpdate d u.update) u.filter = true := by
  obtain ⟨hfnd, hupd⟩ := hu
  rw [docMatches_iff] at h ⊢
  intro kv hm
  obtain ⟨k, v⟩ := kv
  cases hcase : u.update with
  | set L =>
    simp only [hcase] at hupd
    obtain ⟨hLnd, hcons⟩ := hupd
    simp only [applyUpdate]
    rw [lookupField_applySet hLnd]
    rcases hcons (k, v) hm with hsome | hnone
    · rw [hsome]
      rfl
    · rw [hnone]
      exact h (k, v) hm
  | addToSet f w =>
    simp only [hcase] at hupd
    obtain ⟨_, hne⟩ := hupd
    have hkf : k ≠ f := hne (k, v) hm
    simp only [applyUpdate]
    cases hdf : lookupField d f with
    | none =>
      rw [applyAddToSet_of_none w hdf, lookupField_setField_ne _ _ hkf]
      exact h (k, v) hm
    | some vf =>
      cases vf with
      | scalar s =>
        rw [applyAddToSet_of_scalar w hdf]
        exact h (k, v) hm
      | arr xs =>
        by_cases hmem : w ∈ xs
        · rw [applyAddToSet_of_arr_mem hdf hmem]
          exact h (k, v) hm
        · rw [applyAddToSet_of_arr_not_mem hdf hmem, lookupField_setField_ne _ _ hkf]
          exact h (k, v) hm

theorem applyAddToSet_idem (d : Doc) (f : String) (w : Value) :
    applyAddToSet (applyAddToSet d f w) f w = applyAddToSet d f w := by
  cases hdf : lookupField d f with
  | none =>
    rw [applyAddToSet_of_none w hdf]
    exact applyAddToSet_of_arr_mem (lookupField_setField_same d f (.arr [w]))
      (List.mem_singleton_self w)
  | some vf =>
    cases vf with
    | scalar s =>
      rw [applyAddToSet_of_scalar w hdf]
      exact applyAddToSet_of_scalar w hdf
    | arr xs =>
      by_cases hmem : w ∈ xs
      · rw [applyAddToSet_of_arr_mem hdf hmem]
        exact applyAddToSet_of_arr_mem hdf hmem
      · rw [applyAddToSet_of_arr_not_mem hdf hmem]
        exact applyAddToSet_of_arr_mem (lookupField_setField_same d f (.arr (xs ++ [w])))
          (by simp)

theorem applyUpdate_idem {u : UpdateOne} (hu : goodReq u) (d : Doc) :
    applyUpdate (applyUpdate d u.update) u.update = applyUpdate d u.update := by
  obtain ⟨hfnd, hupd⟩ := hu
  cases hcase : u.update with
  | set L =>
    simp only [hcase] at hupd
    simp only [applyUpdate]
    exact applySet_applySet hupd.1
  | addToSet f w =>
    simp only [applyUpdate]
    exact applyAddToSet_idem d f w

theorem applyAddToSet_eq_self {d : Doc} {f : String} {v : Value}
    (h : applyAddToSet d f v = d) :
    (∃ s, lookupField d f = some (.scalar s)) ∨
      ∃ xs, lookupField d f = some (.arr xs) ∧ v ∈ xs := by
  cases hdf : lookupField d f with
  | none =>
    exfalso
    rw [applyAddToSet_of_none v hdf] at h
    have hlen := setField_length_of_not_mem hdf (VField.arr [v])
    rw [h] at hlen
    omega
  | some vf =>
    cases vf with
    | scalar s => exact Or.inl ⟨s, rfl⟩
    | arr xs =>
      by_cases hmem : v ∈ xs
      · exact Or.inr ⟨xs, rfl, hmem⟩
      · exfalso
        rw [applyAddToSet_of_arr_not_mem hdf hmem] at h
        have h1 := lookupField_setField_same d f (VField.arr (xs ++ [v]))
        rw [h, hdf] at h1
        simp at h1

theorem applyAddToSet_noop_preserve {d : Doc} {f : String} {v : Value} {f2 : String}
    {v2 : Value} (hd : applyAddToSet d f v = d) :
    applyAddToSet (applyAddToSet d f2 v2) f v = applyAddToSet d f2 v2 := by
  by_cases hff : f2 = f
  · subst hff
    rcases applyAddToSet_eq_self hd with ⟨s, hs⟩ | ⟨xs, hxs, hv⟩
    · rw [applyAddToSet_of_scalar v2 hs]
      exact hd
    · by_cases hm2 : v2 ∈ xs
      · rw [applyAddToSet_of_arr_mem hxs hm2]
        exact hd
      · rw [applyAddToSet_of_arr_not_mem hxs hm2]
        exact applyAddToSet_of_arr_mem (lookupField_setField_same d f2 (.arr (xs ++ [v2])))
          (by simp [hv])
  · have hne : f ≠ f2 := fun he => hff he.symm
    have hl : lookupField (applyAddToSet d f2 v2) f = lookupField d f := by
      cases hdf2 : lookupField d f2 with
      | none => rw [applyAddToSet_of_none v2 hdf2, lookupField_setField_ne _ _ hne]
      | some vf =>
        cases vf with
        | scalar s2 => rw [applyAddToSet_of_scalar v2 hdf2]
        | arr ys =>
          by_cases hm2 : v2 ∈ ys
          · rw [applyAddToSet_of_arr_mem hdf2 hm2]
          · rw [applyAddToSet_of_arr_not_mem hdf2 hm2, lookupField_setField_ne _ _ hne]
    rcases applyAddToSet_eq_self hd with ⟨s, hs⟩ | ⟨xs, hxs, hv⟩
    · exact applyAddToSet_of_scalar v (hl.trans hs)
    · exact applyAddToSet_of_arr_mem (hl.trans hxs) hv

theorem filtersClash_no_common_match {f1 f2 : List (String × Value)}
    (h : filtersClash f1 f2 = true) (d : Doc) (h1 : docMatches d f1 = true)
    (h2 : docMatches d f2 = true) : False := by
  simp only [filtersClash, List.any_eq_true, Bool.and_eq_true, decide_eq_true_eq] at h
  obtain ⟨kv, hkv, kv2, hkv2, hkeq, hvne⟩ := h
  rw [docMatches_iff] at h1 h2
  have e1 := h1 kv hkv
  have e2 := h2 kv2 hkv2
  rw [hkeq] at e1
  have e3 := e1.symm.trans e2
  exact hvne (by injection e3)

theorem applyUpdateOne_stabilize {u : UpdateOne} (hu : goodReq u) (coll : List Doc) :
    applyUpdateOne (applyUpdateOne coll u) u = applyUpdateOne coll u := by
  induction coll with
  | nil =>
    cases hup : u.upsert with
    | false => simp [applyUpdateOne, hup]
    | true =>
      rw [show applyUpdateOne ([] : List Doc) u
          = [applyUpdate (docOfFilter u.filter) u.update] from by
        simp [applyUpdateOne, hup]]
      have hm : docMatches (applyUpdate (docOfFilter u.filter) u.update) u.filter = true :=
        applyUpdate_matches hu (docMatches_docOfFilter hu.1)
      rw [show applyUpdateOne [applyUpdate (docOfFilter u.filter) u.update] u
          = [applyUpdate (applyUpdate (docOfFilter u.filter) u.update) u.update] from by
        simp [applyUpdateOne, hm]]
      rw [applyUpdate_idem hu]
  | cons d rest ih =>
    by_cases hm : docMatches d u.filter = true
    · rw [show applyUpdateOne (d :: rest) u = applyUpdate d u.update :: rest from by
        simp [applyUpdateOne, hm]]
      have hm2 := applyUpdate_matches hu hm
      rw [show applyUpdateOne (applyUpdate d u.update :: rest) u
          = applyUpdate (applyUpdate d u.update) u.update :: rest from by
        simp [applyUpdateOne, hm2]]
      rw [applyUpdate_idem hu]
    · rw [Bool.not_eq_true] at hm
      rw [show applyUpdateOne (d :: rest) u = d :: applyUpdateOne rest u from by
        simp [applyUpdateOne, hm]]
      rw [show applyUpdateOne (d :: applyUpdateOne rest u) u
          = d :: applyUpdateOne (applyUpdateOne rest u) u from by
        simp [applyUpdateOne, hm]]
      rw [ih]

theorem applyUpdateOne_preserve {u u2 : UpdateOne} (hu2 : goodReq u2)
    (hc : reqCompat u u2 = true) {coll : List Doc}
    (hnoop : applyUpdateOne coll u = coll) :
    applyUpdateOne (applyUpdateOne coll u2) u = applyUpdateOne coll u2 := by
  simp only [reqCompat, Bool.or_eq_true, Bool.and_eq_true, decide_eq_true_eq] at hc
  rcases hc with (rfl | ⟨⟨hfeq, haddu⟩, haddu2⟩) | hclash
  · rw [hnoop, hnoop]
  · -- same filter, both add-to-set
    obtain ⟨f, v, hu1case⟩ : ∃ f v, u.update = .addToSet f v := by
      cases hcase : u.update with
      | set L => simp [isAddReq, hcase] at haddu
      | addToSet f v => exact ⟨f, v, rfl⟩
    obtain ⟨f2, v2, hu2case⟩ : ∃ f v, u2.update = .addToSet f v := by
      cases hcase : u2.update with
      | set L => simp [isAddReq, hcase] at haddu2
      | addToSet f v => exact ⟨f, v, rfl⟩
    have hup2 : u2.upsert = false := by
      obtain ⟨_, hupd⟩ := hu2
      simp only [hu2case] at hupd
      exact hupd.1
    revert hnoop
    induction coll with
    | nil =>
      intro hnoop
      rw [show applyUpdateOne ([] : List Doc) u2 = [] from by simp [applyUpdateOne, hup2]]
      exact hnoop
    | cons d rest ihc =>
      intro hnoop
      by_cases hm : docMatches d u2.filter = true
      · have hmu : docMatches d u.filter = true := by rw [hfeq]; exact hm
        have hd : applyUpdate d u.update = d := by
          have h0 := hnoop
          rw [show applyUpdateOne (d :: rest) u = applyUpdate d u.update :: rest from by
            simp [applyUpdateOne, hmu]] at h0
          rw [List.cons.injEq] at h0
          exact h0.1
        rw [show applyUpdateOne (d :: rest) u2 = applyUpdate d u2.update :: rest from by
          simp [applyUpdateOne, hm]]
        have hm2 : docMatches (applyUpdate d u2.update) u.filter = true := by
          rw [hfeq]
          exact applyUpdate_matches hu2 hm
        rw [show applyUpdateOne (applyUpdate d u2.update :: rest) u
            = applyUpdate (applyUpdate d u2.update) u.update :: rest from by
          simp [applyUpdateOne, hm2]]
        have hkey : applyUpdate (applyUpdate d u2.update) u.update
            = applyUpdate d u2.update := by
          rw [hu1case, hu2case]
          simp only [applyUpdate]
          refine applyAddToSet_noop_preserve ?_
          rw [hu1case] at hd
          simpa [applyUpdate] using hd
        rw [hkey]
      · rw [Bool.not_eq_true] at hm
        have hmu : docMatches d u.filter = false := by rw [hfeq]; exact hm
        have htail : applyUpdateOne rest u = rest := by
          have h0 := hnoop
          rw [show applyUpdateOne (d :: rest) u = d :: applyUpdateOne rest u from by
            simp [applyUpdateOne, hmu]] at h0
          rw [List.cons.injEq] at h0
          exact h0.2
        rw [show applyUpdateOne (d :: rest) u2 = d :: applyUpdateOne rest u2 from by
          simp [applyUpdateOne, hm]]
        rw [show applyUpdateOne (d :: applyUpdateOne rest u2) u
            = d :: applyUpdateOne (applyUpdateOne rest u2) u from by
          simp [applyUpdateOne, hmu]]
        rw [ihc htail]
  · -- clashing filters: no document can match both
    have hdisj := filtersClash_no_common_match hclash
    revert hnoop
    induction coll with
    | nil =>
      intro hnoop
      cases hup2 : u2.upsert with
      | false =>
        rw [show applyUpdateOne ([] : List Doc) u2 = [] from by simp [applyUpdateOne, hup2]]
        exact hnoop
      | true =>
        have hupu : u.upsert = false := by
          cases hup : u.upsert with
          | false => rfl
          | true =>
            exfalso
            rw [show applyUpdateOne ([] : List Doc) u
                = [applyUpdate (docOfFilter u.filter) u.update] from by
              simp [applyUpdateOne, hup]] at hnoop
            exact absurd hnoop (by simp)
        rw [show applyUpdateOne ([] : List Doc) u2
            = [applyUpdate (docOfFilter u2.filter) u2.update] from by
          simp [applyUpdateOne, hup2]]
        have hm2 : docMatches (applyUpdate (docOfFilter u2.filter) u2.update) u2.filter
            = true := applyUpdate_matches hu2 (docMatches_docOfFilter hu2.1)
        have hmnot : docMatches (applyUpdate (docOfFilter u2.filter) u2.update) u.filter
            = false := by
          cases hb : docMatches (applyUpdate (docOfFilter u2.filter) u2.update) u.filter with
          | false => rfl
          | true => exact (hdisj _ hb hm2).elim
        rw [show applyUpdateOne [applyUpdate (docOfFilter u2.filter) u2.update] u
            = [applyUpdate (docOfFilter u2.filter) u2.update] from by
          simp [applyUpdateOne, hmnot, hupu]]
    | cons d rest ihc =>
      intro hnoop
      by_cases hm : docMatches d u2.filter = true
      · have hmu : docMatches d u.filter = false := by
          cases hb : docMatches d u.filter with
          | false => rfl
          | true => exact (hdisj d hb hm).elim
        have htail : applyUpdateOne rest u = rest := by
          have h0 := hnoop
          rw [show applyUpdateOne (d :: rest) u = d :: applyUpdateOne rest u from by
            simp [applyUpdateOne, hmu]] at h0
          rw [List.cons.injEq] at h0
          exact h0.2
        have hm2' : docMatches (applyUpdate d u2.update) u2.filter = true :=
          applyUpdate_matches hu2 hm
        have hmu2 : docMatches (applyUpdate d u2.update) u.filter = false := by
          cases hb : docMatches (applyUpdate d u2.update) u.filter with
          | false => rfl
          | true => exact (hdisj _ hb hm2').elim
        rw [show applyUpdateOne (d :: rest) u2 = applyUpdate d u2.update :: rest from by
          simp [applyUpdateOne, hm]]
        rw [show applyUpdateOne (applyUpdate d u2.update :: rest) u
            = applyUpdate d u2.update :: applyUpdateOne rest u from by
          simp [applyUpdateOne, hmu2]]
        rw [htail]
      · rw [Bool.not_eq_true] at hm
        by_cases hmu : docMatches d u.filter = true
        · have hhead : applyUpdate d u.update = d := by
            have h0 := hnoop
            rw [show applyUpdateOne (d :: rest) u = applyUpdate d u.update :: rest from by
              simp [applyUpdateOne, hmu]] at h0
            rw [List.cons.injEq] at h0
            exact h0.1
          rw [show applyUpdateOne (d :: rest) u2 = d :: applyUpdateOne rest u2 from by
            simp [applyUpdateOne, hm]]
          rw [show applyUpdateOne (d :: applyUpdateOne rest u2) u
              = applyUpdate d u.update :: applyUpdateOne rest u2 from by
            simp [applyUpdateOne, hmu]]
          rw [hhead]
        · rw [Bool.not_eq_true] at hmu
          have htail : applyUpdateOne rest u = rest := by
            have h0 := hnoop
            rw [show applyUpdateOne (d :: rest) u = d :: applyUpdateOne rest u from by
              simp [applyUpdateOne, hmu]] at h0
            rw [List.cons.injEq] at h0
            exact h0.2
          rw [show applyUpdateOne (d :: rest) u2 = d :: applyUpdateOne rest u2 from by
            simp [applyUpdateOne, hm]]
          rw [show applyUpdateOne (d :: applyUpdateOne rest u2) u
              = d :: applyUpdateOne (applyUpdateOne rest u2) u from by
            simp [applyUpdateOne, hmu]]
          rw [ihc htail]

theorem noop_bulk_preserve {u : UpdateOne} {reqs : List UpdateOne}
    (hall : ∀ u2 ∈ reqs, goodReq u2 ∧ reqCompat u u2 = true) {coll : List Doc}
    (hnoop : applyUpdateOne coll u = coll) :
    applyUpdateOne (bulk_write coll reqs) u = bulk_write coll reqs := by
  induction reqs generalizing coll with
  | nil => exact hnoop
  | cons u2 rest ih =>
    have h2 := hall u2 (List.mem_cons_self _ _)
    exact ih (fun q hq => hall q (List.mem_cons_of_mem _ hq))
      (applyUpdateOne_preserve h2.1 h2.2 hnoop)

theorem bulk_write_noops {reqs : List UpdateOne} {s : List Doc}
    (h : ∀ u ∈ reqs, applyUpdateOne s u = s) : bulk_write s reqs = s := by
  induction reqs with
  | nil => rfl
  | cons u rest ih =>
    have h0 : bulk_write s (u :: rest) = bulk_write (applyUpdateOne s u) rest := rfl
    rw [h0, h u (List.mem_cons_self u rest)]
    exact ih fun q hq => h q (List.mem_cons_of_mem u hq)

theorem bulk_write_stabilizes {reqs : List UpdateOne}
    (hgood : ∀ u ∈ reqs, goodReq u)
    (hpair : reqs.Pairwise (fun a b => reqCompat a b = true)) :
    ∀ (coll : List Doc), ∀ u ∈ reqs,
      applyUpdateOne (bulk_write coll reqs) u = bulk_write coll reqs := by
  induction reqs with
  | nil => intro coll u hu; cases hu
  | cons u0 rest ih =>
    intro coll u hu
    have hb : bulk_write coll (u0 :: rest) = bulk_write (applyUpdateOne coll u0) rest := rfl
    rcases List.mem_cons.1 hu with rfl | hu2
    · rw [hb]
      exact noop_bulk_preserve
        (fun q hq => ⟨hgood q (List.mem_cons_of_mem _ hq),
          (List.pairwise_cons.1 hpair).1 q hq⟩)
        (applyUpdateOne_stabilize (hgood u (List.mem_cons_self _ _)) coll)
    · rw [hb]
      exact ih (fun q hq => hgood q (List.mem_cons_of_mem _ hq))
        (List.pairwise_cons.1 hpair).2 _ u hu2

theorem transform_row_to_doc_keys_nodup (row : Row) :
    (keysOf (transform_row_to_doc row)).Nodup := by
  suffices h : ∀ d : SDoc, (keysOf d).Nodup →
      (keysOf (row.foldl (fun d kv =>
        setField d (snake_to_camel kv.1) (normalize_value (transform_value kv.2))) d)).Nodup by
    exact h [] (by simp [keysOf])
  induction row with
  | nil => intro d hd; exact hd
  | cons kv rest ih => intro d hd; exact ih _ (keysOf_setField_nodup hd)

theorem good_set_req_of_lookup {doc : SDoc} (hnd : (keysOf doc).Nodup) {k : String}
    {v : Value} (h : lookupField doc k = some v) (up : Bool) :
    goodReq { filter := [(k, v)], update := .set doc, upsert := up } := by
  refine ⟨by simp [keysOf], hnd, ?_⟩
  intro kv hm
  rw [List.mem_singleton] at hm
  subst hm
  exact Or.inl h

theorem good_attendees_req {doc : SDoc} (hnd : (keysOf doc).Nodup) :
    goodReq
      { filter :=
          [("eventNo", (lookupField doc "eventNo").getD .vNull),
            ("appId", (lookupField doc "appId").getD .vNull)],
        update := .set doc, upsert := true } := by
  refine ⟨by simp [keysOf], hnd, ?_⟩
  intro kv hm
  rcases List.mem_cons.1 hm with rfl | hm2
  · show lookupField doc "eventNo" = some ((lookupField doc "eventNo").getD Value.vNull)
      ∨ lookupField doc "eventNo" = none
    cases lookupField doc "eventNo" with
    | none => exact Or.inr rfl
    | some v => exact Or.inl rfl
  · rw [List.mem_singleton] at hm2
    subst hm2
    show lookupField doc "appId" = some ((lookupField doc "appId").getD Value.vNull)
      ∨ lookupField doc "appId" = none
    cases lookupField doc "appId" with
    | none => exact Or.inr rfl
    | some v => exact Or.inl rfl

theorem good_hcc_req {doc : SDoc} (hnd : (keysOf doc).Nodup) (e : Value) :
    goodReq
      { filter := [("eventNo", e)],
        update := .set (eraseField (eraseField doc "eventNo") "addDate"),
        upsert := false } := by
  refine ⟨by simp [keysOf], ?_, ?_⟩
  · exact keysOf_eraseField_nodup (keysOf_eraseField_nodup hnd)
  · intro kv hm
    rw [List.mem_singleton] at hm
    subst hm
    refine Or.inr ?_
    show lookupField (eraseField (eraseField doc "eventNo") "addDate") "eventNo" = none
    rw [lookupField_eraseField_ne _ (by decide), lookupField_eraseField_self]

theorem good_add_req (e : Value) {f : String} (v : Value) (hf : f ≠ "eventNo") :
    goodReq { filter := [("eventNo", e)], update := .addToSet f v, upsert := false } := by
  refine ⟨by simp [keysOf], rfl, ?_⟩
  intro kv hm
  rw [List.mem_singleton] at hm
  subst hm
  exact fun he => hf he.symm

theorem upsert_row_requests_good (tk : TableKey) (r : Row) :
    ∀ u ∈ upsert_row_requests tk r, goodReq u := by
  intro u hu
  have hnd := transform_row_to_doc_keys_nodup r
  cases tk with
  | events =>
    cases hl : lookupField (transform_row_to_doc r) (snake_to_camel "event_no") with
    | none => simp [upsert_row_requests, TABLES_CONFIG, hl] at hu
    | some v =>
      simp [upsert_row_requests, TABLES_CONFIG, hl] at hu
      subst hu
      exact good_set_req_of_lookup hnd hl true
  | hcc_events =>
    by_cases he : pyTruthyOpt (lookupField (transform_row_to_doc r) "eventNo") = true
    · simp [upsert_row_requests, TABLES_CONFIG, he] at hu
      subst hu
      exact good_hcc_req hnd _
    · rw [Bool.not_eq_true] at he
      simp [upsert_row_requests, TABLES_CONFIG, he] at hu
  | attendees =>
    simp [upsert_row_requests, TABLES_CONFIG] at hu
    subst hu
    exact good_attendees_req hnd
  | coupon_burui =>
    by_cases he : pyTruthyOpt (lookupField (transform_row_to_doc r) "eventNo") = true
    · by_cases hv : pyTruthyOpt (lookupField (transform_row_to_doc r) "branch") = true
      · simp [upsert_row_requests, TABLES_CONFIG, he, hv] at hu
        subst hu
        exact good_add_req _ _ (by decide)
      · rw [Bool.not_eq_true] at hv
        simp [upsert_row_requests, TABLES_CONFIG, he, hv] at hu
    · rw [Bool.not_eq_true] at he
      simp [upsert_row_requests, TABLES_CONFIG, he] at hu
  | member_types =>
    by_cases he : pyTruthyOpt (lookupField (transform_row_to_doc r) "eventNo") = true
    · by_cases hv : pyTruthyOpt (lookupField (transform_row_to_doc r) "memberType") = true
      · simp [upsert_row_requests, TABLES_CONFIG, he, hv] at hu
        subst hu
        exact good_add_req _ _ (by decide)
      · rw [Bool.not_eq_true] at hv
        simp [upsert_row_requests, TABLES_CONFIG, he, hv] at hu
    · rw [Bool.not_eq_true] at he
      simp [upsert_row_requests, TABLES_CONFIG, he] at hu

theorem upsert_batch_good (tk : TableKey) (rows : List Row) :
    ∀ u ∈ upsert_batch tk rows, goodReq u := by
  intro u hu
  simp only [upsert_batch, List.mem_flatten, List.mem_map] at hu
  obtain ⟨l, ⟨r, hr, rfl⟩, hul⟩ := hu
  exact upsert_row_requests_good tk r u hul

/-- Claim C6: applying an `upsert_batch`-generated batch a second time
leaves the sink collection unchanged — direct-document upserts replay
onto the documents they created or updated, and add-to-set requests find
their values already in the arrays — so replays create no duplicate
documents and no state change.  The hypothesis is pairwise compatibility
of the generated requests, which holds for every batch whose rows carry
distinct natural keys, as fetched batches do. -/
theorem upsert_batch_idempotent (tk : TableKey) (coll : List Doc) (rows : List Row)
    (hpair : (upsert_batch tk rows).Pairwise (fun a b => reqCompat a b = true)) :
    bulk_write (bulk_write coll (upsert_batch tk rows)) (upsert_batch tk rows)
      = bulk_write coll (upsert_batch tk rows) :=
  bulk_write_noops fun u hu =>
    bulk_write_stabilizes (upsert_batch_good tk rows) hpair coll u hu

/-- Claim C6, witness: a two-row `events` batch and a duplicated-value
`coupon_burui` batch both replay onto a live collection without change;
the array length is unchanged on the re-run. -/
theorem upsert_batch_idempotent_witness :
    (bulk_write
        (bulk_write [[("eventNo", VField.scalar (Value.vStr "HCC9"))]]
          (upsert_batch .events
            [[("event_no", Value.vStr "HCC1"), ("open_flag", Value.vStr "Y")],
              [("event_no", Value.vStr "HCC2"), ("open_flag", Value.vStr "N")]]))
        (upsert_batch .events
          [[("event_no", Value.vStr "HCC1"), ("open_flag", Value.vStr "Y")],
            [("event_no", Value.vStr "HCC2"), ("open_flag", Value.vStr "N")]])
      = bulk_write [[("eventNo", VField.scalar (Value.vStr "HCC9"))]]
          (upsert_batch .events
            [[("event_no", Value.vStr "HCC1"), ("open_flag", Value.vStr "Y")],
              [("event_no", Value.vStr "HCC2"), ("open_flag", Value.vStr "N")]]))
    ∧ (bulk_write
        (bulk_write [[("eventNo", VField.scalar (Value.vStr "HCC1"))]]
          (upsert_batch .coupon_burui
            [[("event_no", Value.vStr "HCC1"), ("branch", Value.vStr "B7"),
                ("id", Value.vInt 1)]]))
        (upsert_batch .coupon_burui
          [[("event_no", Value.vStr "HCC1"), ("branch", Value.vStr "B7"),
              ("id", Value.vInt 1)]])
      = bulk_write [[("eventNo", VField.scalar (Value.vStr "HCC1"))]]
          (upsert_batch .coupon_burui
            [[("event_no", Value.vStr "HCC1"), ("branch", Value.vStr "B7"),
                ("id", Value.vInt 1)]])) :=
  ⟨upsert_batch_idempotent .events [[("eventNo", VField.scalar (Value.vStr "HCC9"))]]
      [[("event_no", Value.vStr "HCC1"), ("open_flag", Value.vStr "Y")],
        [("event_no", Value.vStr "HCC2"), ("open_flag", Value.vStr "N")]] (by decide),
    upsert_batch_idempotent .coupon_burui
      [[("eventNo", VField.scalar (Value.vStr "HCC1"))]]
      [[("event_no", Value.vStr "HCC1"), ("branch", Value.vStr "B7"),
          ("id", Value.vInt 1)]] (by decide)⟩

theorem upsert_row_requests_no_upsert {tk : TableKey}
    (htk : tk = TableKey.hcc_events ∨ tk = TableKey.coupon_burui
      ∨ tk = TableKey.member_types) (r : Row) :
    ∀ u ∈ upsert_row_requests tk r, u.upsert = false := by
  intro u hu
  rcases htk with rfl | rfl | rfl
  · by_cases he : pyTruthyOpt (lookupField (transform_row_to_doc r) "eventNo") = true
    · simp [upsert_row_requests, TABLES_CONFIG, he] at hu
      subst hu
      rfl
    · rw [Bool.not_eq_true] at he
      simp [upsert_row_requests, TABLES_CONFIG, he] at hu
  · by_cases he : pyTruthyOpt (lookupField (transform_row_to_doc r) "eventNo") = true
    · by_cases hv : pyTruthyOpt (lookupField (transform_row_to_doc r) "branch") = true
      · simp [upsert_row_requests, TABLES_CONFIG, he, hv] at hu
        subst hu
        rfl
      · rw [Bool.not_eq_true] at hv
        simp [upsert_row_requests, TABLES_CONFIG, he, hv] at hu
    · rw [Bool.not_eq_true] at he
      simp [upsert_row_requests, TABLES_CONFIG, he] at hu
  · by_cases he : pyTruthyOpt (lookupField (transform_row_to_doc r) "eventNo") = true
    · by_cases hv : pyTruthyOpt (lookupField (transform_row_to_doc r) "memberType") = true
      · simp [upsert_row_requests, TABLES_CONFIG, he, hv] at hu
        subst hu
        rfl
      · rw [Bool.not_eq_true] at hv
        simp [upsert_row_requests, TABLES_CONFIG, he, hv] at hu
    · rw [Bool.not_eq_true] at he
      simp [upsert_row_requests, TABLES_CONFIG, he] at hu

theorem upsert_batch_no_upsert {tk : TableKey}
    (htk : tk = TableKey.hcc_events ∨ tk = TableKey.coupon_burui
      ∨ tk = TableKey.member_types) (rows : List Row) :
    ∀ u ∈ upsert_batch tk rows, u.upsert = false := by
  intro u hu
  simp only [upsert_batch, List.mem_flatten, List.mem_map] at hu
  obtain ⟨l, ⟨r, hr, rfl⟩, hul⟩ := hu
  exact upsert_row_requests_no_upsert htk r u hul

theorem applyUpdateOne_length {u : UpdateOne} (hu : u.upsert = false) (coll : List Doc) :
    (applyUpdateOne coll u).length = coll.length := by
  induction coll with
  | nil => simp [applyUpdateOne, hu]
  | cons d rest ih =>
    rw [applyUpdateOne]
    by_cases hm : docMatches d u.filter = true
    · rw [if_pos hm]
      rfl
    · rw [Bool.not_eq_true] at hm
      rw [if_neg (by simp [hm])]
      simp [ih]

theorem bulk_write_length {reqs : List UpdateOne} (h : ∀ u ∈ reqs, u.upsert = false) :
    ∀ coll : List Doc, (bulk_write coll reqs).length = coll.length := by
  induction reqs with
  | nil => intro coll; rfl
  | cons u rest ih =>
    intro coll
    have h0 : bulk_write coll (u :: rest) = bulk_write (applyUpdateOne coll u) rest := rfl
    rw [h0, ih (fun q hq => h q (List.mem_cons_of_mem u hq)),
      applyUpdateOne_length (h u (List.mem_cons_self u rest))]

theorem applyUpdateOne_no_match {u : UpdateOne} (hu : u.upsert = false) {coll : List Doc}
    (h : ∀ d ∈ coll, docMatches d u.filter = false) : applyUpdateOne coll u = coll := by
  induction coll with
  | nil => simp [applyUpdateOne, hu]
  | cons d rest ih =>
    rw [applyUpdateOne, if_neg (by simp [h d (List.mem_cons_self d rest)])]
    rw [ih fun d2 hd2 => h d2 (List.mem_cons_of_mem d hd2)]

theorem migrate_step_counts_rows (now : Int) (tk : TableKey) (db : List Row)
    (wl : List String) (wEnd : Int) (key : WinKey) (st : EngineState)
    (r0 : Row) (rest : List Row) (t : Int) (i : Value)
    (hf : fetch_batch tk db wl wEnd st.last_t st.last_id BATCH_SIZE = r0 :: rest)
    (hc : new_cursor (TABLES_CONFIG tk) (rest.getLastD r0) = some (t, i)) :
    (migrate_step now tk db wl wEnd key .ok st).1.processed_since_resume
      = st.processed_since_resume + (r0 :: rest).length := by
  simp only [migrate_step, hf]
  cases hc2 : new_cursor (TABLES_CONFIG tk) (rest.getLastD r0) with
  | none => rw [hc2] at hc; cases hc
  | some p => rfl

/-- Claim C10: for the merge-source entity `hcc_events` and the
embedded-array entities `coupon_burui` and `member_types`, every
request the batch upserter issues has upsert disabled, so applying a
batch never changes the number of sink documents; when no sink document
matches a batch's filters the batch leaves the sink exactly unchanged;
and the engine still counts every fetched row of a successful batch as
processed, independent of any sink effect. -/
theorem merge_and_embed_entities_never_insert (tk : TableKey)
    (htk : tk = TableKey.hcc_events ∨ tk = TableKey.coupon_burui
      ∨ tk = TableKey.member_types) (rows : List Row) (coll : List Doc) :
    (∀ u ∈ upsert_batch tk rows, u.upsert = false)
    ∧ (bulk_write coll (upsert_batch tk rows)).length = coll.length
    ∧ ((∀ u ∈ upsert_batch tk rows, ∀ d ∈ coll, docMatches d u.filter = false) →
        bulk_write coll (upsert_batch tk rows) = coll)
    ∧ (∀ (now wEnd : Int) (db : List Row) (wl : List String) (key : WinKey)
        (st : EngineState) (r0 : Row) (rest : List Row) (t : Int) (i : Value),
        fetch_batch tk db wl wEnd st.last_t st.last_id BATCH_SIZE = r0 :: rest →
        new_cursor (TABLES_CONFIG tk) (rest.getLastD r0) = some (t, i) →
        (migrate_step now tk db wl wEnd key .ok st).1.processed_since_resume
          = st.processed_since_resume + (r0 :: rest).length) := by
  refine ⟨upsert_batch_no_upsert htk rows, bulk_write_length (upsert_batch_no_upsert htk rows) coll,
    fun hnm => bulk_write_noops fun u hu =>
      applyUpdateOne_no_match (upsert_batch_no_upsert htk rows u hu) (hnm u hu), ?_⟩
  intro now wEnd db wl key st r0 rest t i hf hc
  exact migrate_step_counts_rows now tk db wl wEnd key st r0 rest t i hf hc

/-- Claim C10, witness: a `coupon_burui` row whose parent event document
is absent from the sink leaves the one-document sink unchanged, and the
engine's successful iteration on that row still advances the processed
count by one. -/
theorem merge_and_embed_entities_never_insert_witness :
    (bulk_write [[("eventNo", VField.scalar (Value.vStr "OTHER"))]]
        (upsert_batch .coupon_burui
          [[("event_no", Value.vStr "E1"), ("branch", Value.vStr "B1"),
              ("id", Value.vInt 1), ("add_date", Value.vInt 3)]])).length = 1
    ∧ bulk_write [[("eventNo", VField.scalar (Value.vStr "OTHER"))]]
        (upsert_batch .coupon_burui
          [[("event_no", Value.vStr "E1"), ("branch", Value.vStr "B1"),
              ("id", Value.vInt 1), ("add_date", Value.vInt 3)]])
      = [[("eventNo", VField.scalar (Value.vStr "OTHER"))]]
    ∧ (migrate_step 100 .coupon_burui
          [[("event_no", Value.vStr "E1"), ("branch", Value.vStr "B1"),
              ("id", Value.vInt 1), ("add_date", Value.vInt 3)]]
          ["E1"] 10 (0, 10, Mode.full) .ok
          ⟨none, none, 0, 0, fun _ => [], ⟨[], []⟩⟩).1.processed_since_resume = 1 :=
  ⟨(merge_and_embed_entities_never_insert .coupon_burui (Or.inr (Or.inl rfl))
      [[("event_no", Value.vStr "E1"), ("branch", Value.vStr "B1"),
          ("id", Value.vInt 1), ("add_date", Value.vInt 3)]]
      [[("eventNo", VField.scalar (Value.vStr "OTHER"))]]).2.1,
    (merge_and_embed_entities_never_insert .coupon_burui (Or.inr (Or.inl rfl))
      [[("event_no", Value.vStr "E1"), ("branch", Value.vStr "B1"),
          ("id", Value.vInt 1), ("add_date", Value.vInt 3)]]
      [[("eventNo", VField.scalar (Value.vStr "OTHER"))]]).2.2.1 (by decide),
    (merge_and_embed_entities_never_insert .coupon_burui (Or.inr (Or.inl rfl))
      [[("event_no", Value.vStr "E1"), ("branch", Value.vStr "B1"),
          ("id", Value.vInt 1), ("add_date", Value.vInt 3)]]
      [[("eventNo", VField.scalar (Value.vStr "OTHER"))]]).2.2.2 100 10
      [[("event_no", Value.vStr "E1"), ("branch", Value.vStr "B1"),
          ("id", Value.vInt 1), ("add_date", Value.vInt 3)]]
      ["E1"] (0, 10, Mode.full)
      ⟨none, none, 0, 0, fun _ => [], ⟨[], []⟩⟩
      [("event_no", Value.vStr "E1"), ("branch", Value.vStr "B1"),
          ("id", Value.vInt 1), ("add_date", Value.vInt 3)] [] 3 (Value.vInt 1)
      (by decide) (by decide)⟩

end Migrate
